import Mathlib

/-!
Verification development for the campaign dispatch engine of the bulk-email
service (`backend/server.py`).

Modelling conventions:
* Python strings are `List Char`; `str.replace` is `replaceAll`.
* Untyped metadata values are `PyValue`, with `pyStr` for Python `str(...)`.
* The Mongo documents backing one campaign run are a `DB` record (the one
  campaign addressed by `campaign_id`, plus its recipients in store order).
* One execution of `process_bulk_email_campaign` is modelled as the list of
  store events it performs, in program order, applied to the `DB` state.
  The external delivery provider is an oracle `provider : RecipientRec →
  SendResult` giving the settled result of each `send_single_email` task.
* Run-level faults (store unavailability etc.) are modelled by cutting the
  event list after `n` performed events; `handlerOk` says whether the
  recovery write inside the `except` block itself succeeds.
* `datetime.now(timezone.utc)` is abstracted as a parameter `t : Nat`.
-/

namespace EmailAgent

/-- Result of one `send_single_email` call as observed by
`asyncio.gather(..., return_exceptions=True)` (line 191): the coroutine
returned `True`, returned `False`, or raised. -/
inductive SendResult
  | success
  | failure
  | fault
deriving DecidableEq

/-- Worker for `replaceAll`, structurally recursive on a fuel bounding the
length of the remaining text (so that it evaluates by kernel reduction). -/
def replaceAllGo (pat rep : List Char) : Nat → List Char → List Char
  | _, [] => []
  | 0, s => s
  | Nat.succ n, c :: cs =>
    if pat.isPrefixOf (c :: cs)
    then rep ++ replaceAllGo pat rep n ((c :: cs).drop pat.length)
    else c :: replaceAllGo pat rep n cs

/-- Python `s.replace(pat, rep)` (as used at lines 110-116): replace every
non-overlapping occurrence of `pat` from left to right.  Every call site uses
a non-empty `pat`; for `pat = []` this returns `s` unchanged. -/
def replaceAll (pat rep s : List Char) : List Char :=
  match pat with
  | [] => s
  | _ :: _ => replaceAllGo pat rep s.length s

/-- Whether `pat` occurs as a contiguous substring of `s` (Python `pat in s`). -/
def occursIn (pat : List Char) : List Char → Bool
  | [] => pat.isPrefixOf []
  | c :: cs => pat.isPrefixOf (c :: cs) || occursIn pat cs

/-- Untyped values stored in `Recipient.metadata : Dict[str, Any]`. -/
inductive PyValue
  | str : List Char → PyValue
  | int : Int → PyValue
  | bool : Bool → PyValue
  | pyNone : PyValue
deriving DecidableEq

/-- Python `str(value)` as applied at lines 115-116. -/
def pyStr : PyValue → List Char
  | PyValue.str s => s
  | PyValue.int n => (toString n).data
  | PyValue.bool b => if b then ['T', 'r', 'u', 'e'] else ['F', 'a', 'l', 's', 'e']
  | PyValue.pyNone => ['N', 'o', 'n', 'e']

/-- The reserved personalization key `name`. -/
def nameKey : List Char := ['n', 'a', 'm', 'e']

/-- The literal placeholder text for key `k`: `f"` + two opening braces + `{key}`
+ two closing braces + `"` (line 115). -/
def placeholder (k : List Char) : List Char := '{' :: '{' :: (k ++ ['}', '}'])

/-- The hard-coded name placeholder of lines 110-111. -/
def namePat : List Char := placeholder nameKey

/-- The metadata-substitution loop of `send_single_email` (lines 113-116):
for each `(key, value)` pair in dict order, replace the placeholder of `key`
by `str(value)`.  `recipient.metadata or` the empty dict is modelled by the
list itself being possibly empty. -/
def mdFold (t : List Char) (md : List (List Char × PyValue)) : List Char :=
  md.foldl (fun acc kv => replaceAll (placeholder kv.1) (pyStr kv.2) acc) t

/-- The name-substitution step of `send_single_email` (lines 109-111):
`if recipient.name:` is Python truthiness, so `None` and the empty string
are skipped. -/
def nameStep (t : List Char) (name : Option (List Char)) : List Char :=
  match name with
  | some n => if n = [] then t else replaceAll namePat n t
  | none => t

/-- Personalization performed by `send_single_email` (lines 104-116), applied
to the subject and to the content one text at a time. -/
def personalizeText (t : List Char) (name : Option (List Char))
    (md : List (List Char × PyValue)) : List Char :=
  mdFold (nameStep t name) md

/-- Modelled from the spec (section 4.1), for comparison with the code: the
placeholder of the reserved key `name` is replaced by `recipient.name`
whenever a name is present, and the placeholder of every other key present
in metadata by the stringified metadata value; the metadata entry for key
`name` (if any) is ignored, and unmatched placeholders stay verbatim.  The
same sequential left-to-right literal replacement as the code is used. -/
def renderSpecText (t : List Char) (name : Option (List Char))
    (md : List (List Char × PyValue)) : List Char :=
  mdFold
    (match name with
      | some n => replaceAll namePat n t
      | none => t)
    (md.filter fun kv => !(kv.1 == nameKey))

/-- Recipient delivery status (`Recipient.status`, line 42). -/
inductive RStatus
  | pending
  | sent
  | failed
  | delivered
  | opened
  | clicked
deriving DecidableEq

/-- Campaign status (`Campaign.status`, line 59 and the values written by the
dispatch engine). -/
inductive CStatus
  | draft
  | sending
  | completed
  | completedWithErrors
  | failed
deriving DecidableEq

/-- A stored recipient document, restricted to the fields the dispatch engine
reads or writes (`campaign_id` is implicit: a `DB` holds the recipients of
the one campaign being processed; `created_at` is never read). -/
structure RecipientRec where
  id : Nat
  email : List Char
  name : Option (List Char)
  metadata : List (List Char × PyValue)
  status : RStatus
deriving DecidableEq

/-- A stored campaign document, restricted to the fields the engine reads or
writes (`name`, `sender_name`, `template_id`, `ai_generated`, `created_at`
are never touched by the run). -/
structure CampaignRec where
  status : CStatus
  sent_count : Nat
  failed_count : Nat
  total_recipients : Nat
  updated_at : Nat
  subject : List Char
  content : List Char
deriving DecidableEq

/-- The store state relevant to one run: the campaign looked up by
`campaign_id` (`none` if absent) and its recipients in store order. -/
structure DB where
  campaign : Option CampaignRec
  recipients : List RecipientRec
deriving DecidableEq

/-- Payload of a `db.campaigns.update_one(..., "$set": fields)` call: only the
fields present in the set document are written. -/
structure CampaignUpdate where
  status : Option CStatus
  sent_count : Option Nat
  failed_count : Option Nat
  updated_at : Option Nat
deriving DecidableEq

/-- One observable store/provider operation of a run. -/
inductive Event
  | campaignWrite : CampaignUpdate → Event
  | recipientWrite : Nat → RStatus → Event
  | providerCall : Nat → Event
  | sleep : Event
deriving DecidableEq

/-- Set document of line 162-165: status `sending` plus timestamp. -/
def sendingUpdate (t : Nat) : CampaignUpdate :=
  ⟨some CStatus.sending, none, none, some t⟩

/-- Set document of lines 218-230: `final_status`, both counters, timestamp. -/
def finalUpdate (sc fc t : Nat) : CampaignUpdate :=
  ⟨some (if fc = 0 then CStatus.completed else CStatus.completedWithErrors),
    some sc, some fc, some t⟩

/-- Set document of the `except` handler (lines 236-239): status `failed` plus
timestamp, nothing else. -/
def failedUpdate (t : Nat) : CampaignUpdate :=
  ⟨some CStatus.failed, none, none, some t⟩

/-- Recipient status recorded for one gather result (lines 194-212):
an exception or a `False` return is recorded `failed`, `True` is `sent`. -/
def recordStatus : SendResult → RStatus
  | SendResult.fault => RStatus.failed
  | SendResult.success => RStatus.sent
  | SendResult.failure => RStatus.failed

/-- Events and counters accumulated while settling batches. -/
structure RunAcc where
  evs : List Event
  sent_count : Nat
  failed_count : Nat
deriving DecidableEq

/-- The `for recipient, result in zip(batch, results)` loop (lines 194-212):
per recipient, in batch order, one individual status write and one counter
increment; the three branches are exception / truthy result / falsy result. -/
def settleBatch (provider : RecipientRec → SendResult) :
    List RecipientRec → Nat → Nat → RunAcc
  | [], sc, fc => ⟨[], sc, fc⟩
  | r :: rs, sc, fc =>
    match provider r with
    | SendResult.fault =>
      let acc := settleBatch provider rs sc (fc + 1)
      ⟨Event.recipientWrite r.id RStatus.failed :: acc.evs,
        acc.sent_count, acc.failed_count⟩
    | SendResult.success =>
      let acc := settleBatch provider rs (sc + 1) fc
      ⟨Event.recipientWrite r.id RStatus.sent :: acc.evs,
        acc.sent_count, acc.failed_count⟩
    | SendResult.failure =>
      let acc := settleBatch provider rs sc (fc + 1)
      ⟨Event.recipientWrite r.id RStatus.failed :: acc.evs,
        acc.sent_count, acc.failed_count⟩

/-- Worker for `chunk10`, structurally recursive on a fuel bounding the
length of the remaining list. -/
def chunk10Go {α : Type} : Nat → List α → List (List α)
  | _, [] => []
  | 0, _ => []
  | Nat.succ n, x :: xs => (x :: xs).take 10 :: chunk10Go n ((x :: xs).drop 10)

/-- The slicing loop `for i in range(0, len(recipients), batch_size)` with
`batch_size = 10` (lines 181-183): successive slices `recipients[i:i+10]`. -/
def chunk10 {α : Type} (l : List α) : List (List α) := chunk10Go l.length l

/-- The batch loop of lines 182-216: per batch, the concurrent provider calls
(the gather fan-out), then the per-recipient settlement writes, then the
1-second inter-batch sleep when more recipients remain (line 215: the sleep
condition `i + batch_size < len(recipients)` holds exactly when a further
batch follows, since every batch is non-empty). -/
def runBatches (provider : RecipientRec → SendResult) :
    List (List RecipientRec) → Nat → Nat → RunAcc
  | [], sc, fc => ⟨[], sc, fc⟩
  | b :: rest, sc, fc =>
    let s := settleBatch provider b sc fc
    let acc := runBatches provider rest s.sent_count s.failed_count
    ⟨(b.map fun r => Event.providerCall r.id) ++ s.evs ++
      (if rest.isEmpty then [] else [Event.sleep]) ++ acc.evs,
      acc.sent_count, acc.failed_count⟩

/-- The recipient query of lines 168-171: all recipients of the campaign with
status `pending`, in store order. -/
def pendingRecipients (db : DB) : List RecipientRec :=
  db.recipients.filter fun r => r.status == RStatus.pending

/-- Recipient selection including the test-mode truncation `recipients[:5]`
of lines 173-175. -/
def selectedRecipients (db : DB) (test_mode : Bool) : List RecipientRec :=
  if test_mode then (pendingRecipients db).take 5 else pendingRecipients db

/-- Store operations performed by a fault-free `process_bulk_email_campaign`
body (lines 152-232), in program order.  A missing campaign only logs and
returns (lines 155-157). -/
def bodyTrace (db : DB) (provider : RecipientRec → SendResult)
    (test_mode : Bool) (t : Nat) : List Event :=
  match db.campaign with
  | none => []
  | some _ =>
    let acc := runBatches provider (chunk10 (selectedRecipients db test_mode)) 0 0
    Event.campaignWrite (sendingUpdate t) ::
      (acc.evs ++ [Event.campaignWrite (finalUpdate acc.sent_count acc.failed_count t)])

/-- Events of a whole run.  `faultAt = some n` injects a run-level fault after
`n` store events of the body have been performed (any awaited store call may
raise); the `except` handler (lines 234-239) then logs and attempts the
recovery write, which succeeds iff `handlerOk`. -/
def runTrace (db : DB) (provider : RecipientRec → SendResult)
    (test_mode : Bool) (t : Nat) : Option Nat → Bool → List Event
  | none, _ => bodyTrace db provider test_mode t
  | some n, handlerOk =>
    (bodyTrace db provider test_mode t).take n ++
      (if handlerOk then [Event.campaignWrite (failedUpdate t)] else [])

/-- Whether the coroutine raises to its caller: only when a run-level fault
occurred and the recovery write inside the `except` block raised as well. -/
def runRaises : Option Nat → Bool → Bool
  | none, _ => false
  | some _, handlerOk => !handlerOk

/-- Functional update of a recipient's status field. -/
def setStatus (r : RecipientRec) (st : RStatus) : RecipientRec :=
  { r with status := st }

/-- Mongo `update_one` on the recipients collection (lines 196-211): update
the first document whose `id` matches. -/
def updateFirst (rid : Nat) (st : RStatus) : List RecipientRec → List RecipientRec
  | [] => []
  | r :: rs => if r.id = rid then setStatus r st :: rs else r :: updateFirst rid st rs

/-- Mongo `$set` on the campaign document: fields present in the update
overwrite, the rest are untouched. -/
def applyUpdate (u : CampaignUpdate) (c : CampaignRec) : CampaignRec :=
  { c with
      status := u.status.getD c.status,
      sent_count := u.sent_count.getD c.sent_count,
      failed_count := u.failed_count.getD c.failed_count,
      updated_at := u.updated_at.getD c.updated_at }

/-- Effect of one event on the store (provider calls and sleeps have none). -/
def applyEvent (db : DB) : Event → DB
  | Event.campaignWrite u => ⟨db.campaign.map (applyUpdate u), db.recipients⟩
  | Event.recipientWrite rid st => ⟨db.campaign, updateFirst rid st db.recipients⟩
  | Event.providerCall _ => db
  | Event.sleep => db

/-- Replay a list of events against the store. -/
def applyEvents (db : DB) (evs : List Event) : DB := evs.foldl applyEvent db

/-- Store state after a whole run of `process_bulk_email_campaign`. -/
def finalState (db : DB) (provider : RecipientRec → SendResult) (test_mode : Bool)
    (t : Nat) (faultAt : Option Nat) (handlerOk : Bool) : DB :=
  applyEvents db (runTrace db provider test_mode t faultAt handlerOk)

/-- Campaign `$set` documents of a trace, in write order. -/
def campaignUpdatesOf (evs : List Event) : List CampaignUpdate :=
  evs.filterMap fun e => match e with
    | Event.campaignWrite u => some u
    | _ => none

/-- Campaign status values written by a trace, in write order. -/
def campaignStatusWrites (evs : List Event) : List CStatus :=
  evs.filterMap fun e => match e with
    | Event.campaignWrite u => u.status
    | _ => none

/-- Recipient ids passed to the delivery provider, in call order. -/
def providerCallsOf (evs : List Event) : List Nat :=
  evs.filterMap fun e => match e with
    | Event.providerCall rid => some rid
    | _ => none

/-- Individual recipient status writes of a trace, in write order. -/
def recipientWritesOf (evs : List Event) : List (Nat × RStatus) :=
  evs.filterMap fun e => match e with
    | Event.recipientWrite rid st => some (rid, st)
    | _ => none

/-- The stored recipient document for an id: the first match, as Mongo's
`find_one`/`update_one` see it. -/
def findRec (rid : Nat) (l : List RecipientRec) : Option RecipientRec :=
  l.find? fun r => r.id == rid

/-- A key is brace-free when none of its characters is an opening or closing
brace. -/
def braceFree (k : List Char) : Prop := ∀ c ∈ k, c ≠ '{' ∧ c ≠ '}'

def greetTemplate : List Char :=
  ['H', 'i', ' ', '{', '{', 'n', 'a', 'm', 'e', '}', '}']

def bobMd : List (List Char × PyValue) := [(nameKey, PyValue.str ['B', 'o', 'b'])]

def patholTemplate : List Char :=
  ['{', '{', 'x', '{', '{', 'n', 'a', 'm', 'e', '}', '}']

def patholMd : List (List Char × PyValue) :=
  [(['x', '{', '{', 'n', 'a', 'm', 'e'], PyValue.str ['G', 'O', 'N', 'E'])]

/-- Replay of a list of individual recipient status writes (the recipient
effect of a trace). -/
def applyWrites (l : List RecipientRec) (ws : List (Nat × RStatus)) : List RecipientRec :=
  ws.foldl (fun acc w => updateFirst w.1 w.2 acc) l

/-- The last status written for `rid` by a list of writes, if any (the status
that survives replay, since a later `update_one` overwrites an earlier one). -/
def lastStatus (rid : Nat) : List (Nat × RStatus) → Option RStatus
  | [] => none
  | w :: ws =>
    match lastStatus rid ws with
    | some st => some st
    | none => if w.1 = rid then some w.2 else none

/-- Concrete fixtures used to evaluate the theorems on closed inputs. -/
def wRec (i : Nat) (st : RStatus) : RecipientRec := ⟨i, ['a'], none, [], st⟩

def wCampaign : CampaignRec := ⟨CStatus.draft, 0, 0, 7, 0, [], []⟩

def wDB : DB :=
  ⟨some wCampaign,
    [wRec 1 RStatus.pending, wRec 2 RStatus.pending, wRec 3 RStatus.pending,
      wRec 4 RStatus.pending, wRec 5 RStatus.pending, wRec 6 RStatus.pending,
      wRec 7 RStatus.sent]⟩

def wProvider : RecipientRec → SendResult := fun r =>
  if r.id = 1 then SendResult.success
  else if r.id = 2 then SendResult.fault
  else SendResult.failure

/-- A campaign with non-zero counters, to observe the frame of the recovery
write. -/
def wCampaign9 : CampaignRec := ⟨CStatus.draft, 7, 8, 3, 0, [], []⟩

def wDB9 : DB := ⟨some wCampaign9, [wRec 1 RStatus.pending, wRec 2 RStatus.pending]⟩

/-- A campaign whose recipients are all settled already: the empty-run case. -/
def wDBDone : DB := ⟨some wCampaign, [wRec 1 RStatus.sent, wRec 2 RStatus.failed]⟩

/-! ### Unfolding equations for the fuel-based workers -/

theorem replaceAllGo_congr {pat : List Char} (hp : pat ≠ []) (rep : List Char) :
    ∀ f g s, s.length ≤ f → s.length ≤ g →
      replaceAllGo pat rep f s = replaceAllGo pat rep g s := by
  intro f
  induction f with
  | zero =>
    intro g s hf _
    have hs : s = [] := List.eq_nil_of_length_eq_zero (Nat.le_zero.mp hf)
    subst hs
    cases g <;> rfl
  | succ n ih =>
    intro g s hf hg
    match s, g with
    | [], g => cases g <;> rfl
    | c :: cs, 0 => simp at hg
    | c :: cs, Nat.succ m =>
      have hpat : 1 ≤ pat.length := List.length_pos.mpr hp
      simp only [List.length_cons] at hf hg
      cases h : pat.isPrefixOf (c :: cs) with
      | false =>
        simp only [replaceAllGo, h, Bool.false_eq_true, if_false]
        exact congrArg _ (ih m cs (by omega) (by omega))
      | true =>
        simp only [replaceAllGo, h, if_true]
        refine congrArg _ (ih m ((c :: cs).drop pat.length) ?_ ?_) <;>
          (simp only [List.length_drop, List.length_cons]; omega)

theorem replaceAll_nil (pat rep : List Char) : replaceAll pat rep [] = [] := by
  cases pat <;> rfl

theorem replaceAll_pos {pat : List Char} (rep s : List Char) (hp : pat ≠ [])
    (h : pat.isPrefixOf s) :
    replaceAll pat rep s = rep ++ replaceAll pat rep (s.drop pat.length) := by
  match pat, s with
  | [], _ => exact absurd rfl hp
  | p :: ps, [] =>
    exfalso
    have := List.isPrefixOf_iff_prefix.mp h
    simp [List.prefix_nil] at this
  | p :: ps, c :: cs =>
    have hstep : replaceAllGo (p :: ps) rep (c :: cs).length (c :: cs) =
        rep ++ replaceAllGo (p :: ps) rep cs.length ((c :: cs).drop (p :: ps).length) := by
      simp only [List.length_cons, replaceAllGo, h, if_true]
    have hcongr : replaceAllGo (p :: ps) rep cs.length ((c :: cs).drop (p :: ps).length) =
        replaceAllGo (p :: ps) rep ((c :: cs).drop (p :: ps).length).length
          ((c :: cs).drop (p :: ps).length) := by
      apply replaceAllGo_congr hp
      · simp only [List.length_drop, List.length_cons]
        omega
      · exact Nat.le_refl _
    show replaceAllGo (p :: ps) rep (c :: cs).length (c :: cs) = _
    rw [hstep, hcongr]
    rfl

theorem replaceAll_neg {pat : List Char} (rep : List Char) (c : Char) (cs : List Char)
    (hp : pat ≠ []) (h : ¬ pat.isPrefixOf (c :: cs)) :
    replaceAll pat rep (c :: cs) = c :: replaceAll pat rep cs := by
  match pat with
  | [] => exact absurd rfl hp
  | p :: ps =>
    have hb : (p :: ps).isPrefixOf (c :: cs) = false := by
      cases hx : (p :: ps).isPrefixOf (c :: cs)
      · rfl
      · exact absurd hx h
    have hstep : replaceAllGo (p :: ps) rep (c :: cs).length (c :: cs) =
        c :: replaceAllGo (p :: ps) rep cs.length cs := by
      simp only [List.length_cons, replaceAllGo, hb, Bool.false_eq_true, if_false]
    show replaceAllGo (p :: ps) rep (c :: cs).length (c :: cs) = _
    rw [hstep]
    rfl

theorem chunk10Go_congr {α : Type} :
    ∀ f g (l : List α), l.length ≤ f → l.length ≤ g → chunk10Go f l = chunk10Go g l := by
  intro f
  induction f with
  | zero =>
    intro g l hf _
    have hl : l = [] := List.eq_nil_of_length_eq_zero (Nat.le_zero.mp hf)
    subst hl
    cases g <;> rfl
  | succ n ih =>
    intro g l hf hg
    match l, g with
    | [], g => cases g <;> rfl
    | x :: xs, 0 => simp at hg
    | x :: xs, Nat.succ m =>
      simp only [List.length_cons] at hf hg
      simp only [chunk10Go]
      congr 1
      apply ih
      · simp only [List.length_drop, List.length_cons]
        omega
      · simp only [List.length_drop, List.length_cons]
        omega

theorem chunk10_nil {α : Type} : chunk10 ([] : List α) = [] := rfl

theorem chunk10_cons {α : Type} (x : α) (xs : List α) :
    chunk10 (x :: xs) = (x :: xs).take 10 :: chunk10 ((x :: xs).drop 10) := by
  show chunk10Go (x :: xs).length (x :: xs) = _
  simp only [List.length_cons, chunk10Go]
  congr 1
  apply chunk10Go_congr
  · simp only [List.length_drop, List.length_cons]
    omega
  · exact Nat.le_refl _

/-! ### Occurrence and replacement basics -/

theorem occursIn_spec (pat s : List Char) : occursIn pat s = true ↔ pat <:+: s := by
  induction s with
  | nil =>
    simp [occursIn, List.isPrefixOf_iff_prefix, List.prefix_nil, List.infix_nil]
  | cons c cs ih =>
    simp [occursIn, List.isPrefixOf_iff_prefix, List.infix_cons_iff, ih]

theorem replaceAll_of_not_occurs {pat : List Char} (rep : List Char) {s : List Char}
    (hp : pat ≠ []) (h : occursIn pat s = false) : replaceAll pat rep s = s := by
  induction s with
  | nil => exact replaceAll_nil pat rep
  | cons c cs ih =>
    simp only [occursIn, Bool.or_eq_false_iff] at h
    rw [replaceAll_neg rep c cs hp (by simp [h.1])]
    rw [ih h.2]

theorem placeholder_ne_nil (k : List Char) : placeholder k ≠ [] := by
  simp [placeholder]

theorem occursIn_of_prefix_occurs {p q s : List Char} (hpq : p <+: q)
    (h : occursIn q s = true) : occursIn p s = true := by
  rw [occursIn_spec] at h ⊢
  exact List.IsInfix.trans (List.IsPrefix.isInfix hpq) h

theorem placeholder_not_occurs_of_no_braces {k s : List Char}
    (h : occursIn ['{', '{'] s = false) : occursIn (placeholder k) s = false := by
  cases hx : occursIn (placeholder k) s
  · rfl
  · have : occursIn ['{', '{'] s = true := by
      refine occursIn_of_prefix_occurs ?_ hx
      simp [placeholder, List.cons_prefix_cons]
    rw [this] at h
    exact absurd h (by simp)

theorem mdFold_of_no_braces {t : List Char} (md : List (List Char × PyValue))
    (h : occursIn ['{', '{'] t = false) : mdFold t md = t := by
  induction md with
  | nil => rfl
  | cons kv md ih =>
    show mdFold (replaceAll (placeholder kv.1) (pyStr kv.2) t) md = t
    rw [replaceAll_of_not_occurs (pyStr kv.2) (placeholder_ne_nil kv.1)
      (placeholder_not_occurs_of_no_braces h)]
    exact ih

theorem personalizeText_of_no_braces (t : List Char) (name : Option (List Char))
    (md : List (List Char × PyValue)) (h : occursIn ['{', '{'] t = false) :
    personalizeText t name md = t := by
  have hn : nameStep t name = t := by
    match name with
    | none => rfl
    | some n =>
      show (if n = [] then t else replaceAll namePat n t) = t
      by_cases hn : n = []
      · simp [hn]
      · rw [if_neg hn]
        exact replaceAll_of_not_occurs n (placeholder_ne_nil nameKey)
          (placeholder_not_occurs_of_no_braces h)
  show mdFold (nameStep t name) md = t
  rw [hn]
  exact mdFold_of_no_braces md h

/-! ### The name placeholder cannot collide with the placeholder of a
different brace-free key -/

theorem namePat_eq : namePat = ['{', '{', 'n', 'a', 'm', 'e', '}', '}'] := rfl

theorem not_placeholder_prefix_namePat {k : List Char} (hbf : braceFree k)
    (hne : k ≠ nameKey) : ¬ placeholder k <+: namePat := by
  intro h
  rw [namePat_eq] at h
  simp only [placeholder, List.cons_prefix_cons, true_and] at h
  match k, hbf, hne with
  | [], _, _ => exact absurd h (by decide)
  | [c1], _, _ =>
    obtain ⟨h1, h⟩ := List.cons_prefix_cons.mp h
    exact absurd h (by decide)
  | [c1, c2], _, _ =>
    obtain ⟨h1, h⟩ := List.cons_prefix_cons.mp h
    obtain ⟨h2, h⟩ := List.cons_prefix_cons.mp h
    exact absurd h (by decide)
  | [c1, c2, c3], _, _ =>
    obtain ⟨h1, h⟩ := List.cons_prefix_cons.mp h
    obtain ⟨h2, h⟩ := List.cons_prefix_cons.mp h
    obtain ⟨h3, h⟩ := List.cons_prefix_cons.mp h
    exact absurd h (by decide)
  | [c1, c2, c3, c4], _, hne =>
    obtain ⟨h1, h⟩ := List.cons_prefix_cons.mp h
    obtain ⟨h2, h⟩ := List.cons_prefix_cons.mp h
    obtain ⟨h3, h⟩ := List.cons_prefix_cons.mp h
    obtain ⟨h4, h⟩ := List.cons_prefix_cons.mp h
    subst h1; subst h2; subst h3; subst h4
    exact hne rfl
  | c1 :: c2 :: c3 :: c4 :: c5 :: k', hbf, _ =>
    obtain ⟨h1, h⟩ := List.cons_prefix_cons.mp h
    obtain ⟨h2, h⟩ := List.cons_prefix_cons.mp h
    obtain ⟨h3, h⟩ := List.cons_prefix_cons.mp h
    obtain ⟨h4, h⟩ := List.cons_prefix_cons.mp h
    obtain ⟨h5, h⟩ := List.cons_prefix_cons.mp h
    exact ((hbf c5 (by simp)).2 h5).elim

theorem not_namePat_prefix_placeholder {k : List Char} (hbf : braceFree k)
    (hne : k ≠ nameKey) : ¬ namePat <+: placeholder k := by
  intro h
  rw [namePat_eq] at h
  simp only [placeholder, List.cons_prefix_cons, true_and] at h
  match k, hbf, hne with
  | [], _, _ => exact absurd h (by decide)
  | [c1], _, _ =>
    obtain ⟨h1, h⟩ := List.cons_prefix_cons.mp h
    subst h1
    exact absurd h (by decide)
  | [c1, c2], _, _ =>
    obtain ⟨h1, h⟩ := List.cons_prefix_cons.mp h
    obtain ⟨h2, h⟩ := List.cons_prefix_cons.mp h
    subst h1; subst h2
    exact absurd h (by decide)
  | [c1, c2, c3], _, _ =>
    obtain ⟨h1, h⟩ := List.cons_prefix_cons.mp h
    obtain ⟨h2, h⟩ := List.cons_prefix_cons.mp h
    obtain ⟨h3, h⟩ := List.cons_prefix_cons.mp h
    subst h1; subst h2; subst h3
    exact absurd h (by decide)
  | [c1, c2, c3, c4], _, hne =>
    obtain ⟨h1, h⟩ := List.cons_prefix_cons.mp h
    obtain ⟨h2, h⟩ := List.cons_prefix_cons.mp h
    obtain ⟨h3, h⟩ := List.cons_prefix_cons.mp h
    obtain ⟨h4, h⟩ := List.cons_prefix_cons.mp h
    subst h1; subst h2; subst h3; subst h4
    exact hne rfl
  | c1 :: c2 :: c3 :: c4 :: c5 :: k', hbf, _ =>
    obtain ⟨h1, h⟩ := List.cons_prefix_cons.mp h
    obtain ⟨h2, h⟩ := List.cons_prefix_cons.mp h
    obtain ⟨h3, h⟩ := List.cons_prefix_cons.mp h
    obtain ⟨h4, h⟩ := List.cons_prefix_cons.mp h
    obtain ⟨h5, h⟩ := List.cons_prefix_cons.mp h
    exact ((hbf c5 (by simp)).2 h5.symm).elim

theorem brace_not_mem_key_close {k : List Char} (hbf : braceFree k) :
    '{' ∉ k ++ ['}', '}'] := by
  intro hmem
  rcases List.mem_append.mp hmem with hk | hc
  · exact ((hbf _ hk).1 rfl).elim
  · simp at hc

theorem not_namePat_infix_placeholder {k : List Char} (hbf : braceFree k)
    (hne : k ≠ nameKey) : ¬ namePat <:+: placeholder k := by
  rintro ⟨u, v, huv⟩
  match u with
  | [] =>
    rw [List.nil_append] at huv
    exact not_namePat_prefix_placeholder hbf hne ⟨v, huv⟩
  | [a] =>
    simp only [namePat_eq, placeholder, List.cons_append, List.nil_append] at huv
    injection huv with ha huv
    injection huv with hb huv
    exact brace_not_mem_key_close hbf (by rw [← huv]; simp)
  | a :: b :: u'' =>
    simp only [namePat_eq, placeholder, List.cons_append, List.nil_append] at huv
    injection huv with ha huv
    injection huv with hb huv
    exact brace_not_mem_key_close hbf (by rw [← huv]; simp)

/-- An occurrence of the name placeholder inside `placeholder k ++ rest`
(with `k` brace-free and different from `name`) lies entirely inside `rest`. -/
theorem namePat_infix_of_append {k rest : List Char} (hbf : braceFree k)
    (hne : k ≠ nameKey) (h : namePat <:+: placeholder k ++ rest) :
    namePat <:+: rest := by
  obtain ⟨u, v, huv⟩ := h
  rw [List.append_assoc] at huv
  rcases List.append_eq_append_iff.mp huv with ⟨w, hw1, hw2⟩ | ⟨w, hw1, hw2⟩
  · -- placeholder k = u ++ w and namePat ++ v = w ++ rest
    rcases List.append_eq_append_iff.mp hw2 with ⟨w2, hn, hv⟩ | ⟨w2, hn, hr⟩
    · -- w = namePat ++ w2: the name placeholder would sit inside placeholder k
      exfalso
      apply not_namePat_infix_placeholder hbf hne
      exact ⟨u, w2, by rw [List.append_assoc, hw1, hn]⟩
    · -- namePat = w ++ w2 and rest = w2 ++ v
      match w, hn with
      | [], hn =>
        refine ⟨[], v, ?_⟩
        rw [List.nil_append] at hn
        rw [hr, ← hn, List.nil_append]
      | x :: w', hn =>
        exfalso
        have hx : x = '{' := by
          rw [namePat_eq] at hn
          rw [List.cons_append] at hn
          injection hn with hx _
          exact hx.symm
        subst hx
        match u, hw1 with
        | [], hw1 =>
          rw [List.nil_append] at hw1
          apply not_placeholder_prefix_namePat hbf hne
          refine ⟨w2, ?_⟩
          rw [← hw1] at hn
          exact hn.symm
        | [a], hw1 =>
          -- placeholder k = ['{', '{', ...] and also a :: '{' :: w'
          simp only [placeholder, List.cons_append, List.nil_append] at hw1
          injection hw1 with ha hw1
          injection hw1 with hb hw1
          -- hw1 : k ++ ['}','}'] = w'
          rw [namePat_eq] at hn
          rw [List.cons_append] at hn
          injection hn with hx2 hn
          -- hn : ['{','n','a','m','e','}','}'] = w' ++ w2
          rw [← hw1] at hn
          match k, hbf, hn with
          | [], _, hn => simp at hn
          | c :: k'', hbf, hn =>
            rw [List.append_assoc, List.cons_append] at hn
            injection hn with hc _
            exact ((hbf c (by simp)).1 hc.symm).elim
        | a :: b :: u'', hw1 =>
          simp only [placeholder, List.cons_append] at hw1
          injection hw1 with ha hw1
          injection hw1 with hb hw1
          -- hw1 : k ++ ['}','}'] = u'' ++ '{' :: w'
          exact brace_not_mem_key_close hbf (by rw [hw1]; simp)
  · -- u = placeholder k ++ w and rest = w ++ (namePat ++ v)
    exact ⟨w, v, by rw [List.append_assoc, hw2]⟩

/-- If no occurrence of `pat` starts within the first `a.length` positions of
`a ++ b`, replacement passes `a` through unchanged. -/
theorem replaceAll_append_no_match {pat rep : List Char} (hp : pat ≠ []) :
    ∀ a b : List Char, (∀ j, j < a.length → ¬ pat.isPrefixOf ((a ++ b).drop j)) →
      replaceAll pat rep (a ++ b) = a ++ replaceAll pat rep b := by
  intro a
  induction a with
  | nil => intro b _; rfl
  | cons x a ih =>
    intro b hj
    have h0 : ¬ pat.isPrefixOf (x :: (a ++ b)) := by
      have := hj 0 (by simp)
      simpa using this
    have hrec := ih b (fun j hjl => by
      have := hj (j + 1) (by simp only [List.length_cons]; omega)
      simpa using this)
    rw [List.cons_append, replaceAll_neg rep x (a ++ b) hp h0, hrec, List.cons_append]

/-- Replacing the placeholder of a brace-free key other than `name` can never
destroy an occurrence of the name placeholder. -/
theorem namePat_infix_replaceAll {k rep : List Char} (hbf : braceFree k)
    (hne : k ≠ nameKey) :
    ∀ s, namePat <:+: s → namePat <:+: replaceAll (placeholder k) rep s := by
  have main : ∀ n s, s.length ≤ n → namePat <:+: s →
      namePat <:+: replaceAll (placeholder k) rep s := by
    intro n
    induction n with
    | zero =>
      intro s hs h
      have : s = [] := List.eq_nil_of_length_eq_zero (Nat.le_zero.mp hs)
      subst this
      rw [List.infix_nil] at h
      exact absurd h (by decide)
    | succ n ih =>
      intro s hs h
      match s with
      | [] =>
        rw [List.infix_nil] at h
        exact absurd h (by decide)
      | c :: cs =>
        by_cases hp : (placeholder k).isPrefixOf (c :: cs)
        · obtain ⟨rest, hrest⟩ := List.isPrefixOf_iff_prefix.mp hp
          have hdrop : (c :: cs).drop (placeholder k).length = rest := by
            rw [← hrest]
            exact List.drop_left _ _
          rw [replaceAll_pos rep (c :: cs) (placeholder_ne_nil k) hp, hdrop]
          have hinf : namePat <:+: rest := by
            apply namePat_infix_of_append hbf hne
            rw [hrest]
            exact h
          have hlen : rest.length ≤ n := by
            have hL : (placeholder k).length + rest.length = cs.length + 1 := by
              have := congrArg List.length hrest
              simpa [List.length_append] using this
            have hpk : 4 ≤ (placeholder k).length := by
              simp [placeholder, List.length_append]
            simp only [List.length_cons] at hs
            omega
          have := ih rest hlen hinf
          exact List.IsInfix.trans this
            (List.IsSuffix.isInfix (List.suffix_append rep _))
        · rw [replaceAll_neg rep c cs (placeholder_ne_nil k) hp]
          rcases List.infix_cons_iff.mp h with hpre | htail
          · -- the occurrence is right at the head: the next seven characters
            -- of the text are '{','n','a','m','e','}','}' and no match of
            -- `placeholder k` can start inside them
            obtain ⟨t, ht⟩ := hpre
            rw [namePat_eq] at ht
            rw [List.cons_append] at ht
            injection ht with hc ht
            subst hc
            have hcs : cs = ['{', 'n', 'a', 'm', 'e', '}', '}'] ++ t := ht.symm
            subst hcs
            have hskip : replaceAll (placeholder k) rep
                (['{', 'n', 'a', 'm', 'e', '}', '}'] ++ t) =
                ['{', 'n', 'a', 'm', 'e', '}', '}'] ++ replaceAll (placeholder k) rep t := by
              apply replaceAll_append_no_match (placeholder_ne_nil k)
              intro j hjl
              simp only [List.length_cons, List.length_nil] at hjl
              intro hpf
              obtain ⟨t', ht'⟩ := List.isPrefixOf_iff_prefix.mp hpf
              interval_cases j <;>
                (simp only [placeholder, List.cons_append, List.nil_append,
                  List.drop] at ht'
                 injection ht' with h1 ht'
                 try exact absurd h1 (by decide)) <;>
                (injection ht' with h2 ht'
                 exact absurd h2 (by decide))
            rw [hskip]
            refine ⟨[], replaceAll (placeholder k) rep t, ?_⟩
            rw [List.nil_append, namePat_eq]
            rfl
          · have := ih cs (by simp only [List.length_cons] at hs; omega) htail
            exact List.IsInfix.trans this
              (List.IsSuffix.isInfix ⟨[c], rfl⟩)
  intro s
  exact main s.length s le_rfl

theorem namePat_infix_mdFold {md : List (List Char × PyValue)}
    (hmd : ∀ kv ∈ md, kv.1 ≠ nameKey ∧ braceFree kv.1) :
    ∀ t, namePat <:+: t → namePat <:+: mdFold t md := by
  induction md with
  | nil => intro t h; exact h
  | cons kv md ih =>
    intro t h
    show namePat <:+: mdFold (replaceAll (placeholder kv.1) (pyStr kv.2) t) md
    apply ih (fun kv2 hkv2 => hmd kv2 (List.mem_cons_of_mem _ hkv2))
    exact namePat_infix_replaceAll (hmd kv (List.mem_cons_self _ _)).2
      (hmd kv (List.mem_cons_self _ _)).1 t h

/-! ### Claim C3: personalization versus its specification -/

/-- C3, counterexample: the claim says the reserved key `name` is substituted
from `recipient.name` and that metadata drives only the other keys, unmatched
placeholders staying verbatim.  But for a recipient with `name = None` and
metadata containing the key `name`, the code substitutes the metadata value
into the name placeholder, while the spec-modelled renderer leaves it
verbatim. -/
theorem personalization_deviates_from_spec_render :
    personalizeText greetTemplate none bobMd ≠ renderSpecText greetTemplate none bobMd ∧
    personalizeText greetTemplate none bobMd = ['H', 'i', ' ', 'B', 'o', 'b'] ∧
    renderSpecText greetTemplate none bobMd = greetTemplate := by
  decide

/-- C3, amended: personalization agrees with the spec renderer whenever the
recipient name is not the empty string and the metadata has no entry for the
reserved key `name`; a template with no opening double brace (hence no
placeholder) is returned unchanged. -/
theorem personalization_matches_spec_render (t : List Char)
    (name : Option (List Char)) (md : List (List Char × PyValue))
    (hname : name ≠ some []) (hmd : ∀ kv ∈ md, kv.1 ≠ nameKey) :
    personalizeText t name md = renderSpecText t name md ∧
    (occursIn ['{', '{'] t = false → personalizeText t name md = t) := by
  constructor
  · have hfilter : md.filter (fun kv => !(kv.1 == nameKey)) = md := by
      apply List.filter_eq_self.mpr
      intro kv hkv
      simpa using hmd kv hkv
    show mdFold (nameStep t name) md = renderSpecText t name md
    unfold renderSpecText
    rw [hfilter]
    congr 1
    match name, hname with
    | none, _ => rfl
    | some n, hname =>
      show (if n = [] then t else replaceAll namePat n t) = replaceAll namePat n t
      exact if_neg (fun hn => hname (by rw [hn]))
  · exact personalizeText_of_no_braces t name md

theorem personalization_matches_spec_render_witness :
    (some ['A', 'n', 'a'] ≠ some ([] : List Char)) ∧
    (∀ kv ∈ [(['c', 'o'], PyValue.int 7)], kv.1 ≠ nameKey) ∧
    (personalizeText greetTemplate (some ['A', 'n', 'a']) [(['c', 'o'], PyValue.int 7)] =
        renderSpecText greetTemplate (some ['A', 'n', 'a']) [(['c', 'o'], PyValue.int 7)] ∧
      (occursIn ['{', '{'] greetTemplate = false →
        personalizeText greetTemplate (some ['A', 'n', 'a']) [(['c', 'o'], PyValue.int 7)] =
          greetTemplate)) :=
  ⟨by decide, by decide,
    personalization_matches_spec_render greetTemplate (some ['A', 'n', 'a'])
      [(['c', 'o'], PyValue.int 7)] (by decide) (by decide)⟩

/-! ### Claim C10: behavior for falsy recipient names -/

/-- C10, counterexample: the claim says that with a falsy name and no `name`
metadata key the name placeholder remains verbatim.  A metadata key that
itself contains braces can overlap and delete the name placeholder: here the
template contains the name placeholder, the metadata has no `name` key, yet
after personalization the name placeholder is gone. -/
theorem falsy_name_not_verbatim_counterexample :
    occursIn namePat patholTemplate = true ∧
    (∀ kv ∈ patholMd, kv.1 ≠ nameKey) ∧
    personalizeText patholTemplate none patholMd = ['G', 'O', 'N', 'E'] ∧
    occursIn namePat (personalizeText patholTemplate none patholMd) = false := by
  decide

/-- C10, amended: for a recipient whose name is `None` or the empty string the
name field is never used (the result equals the one for `name = None`); if in
addition no metadata key is the reserved key `name` and every metadata key is
brace-free, the name placeholder remains present verbatim in the output; and
if the metadata does contain the key `name`, its stringified value is
substituted into the name placeholder at that step of the metadata pass. -/
theorem falsy_name_behavior (t : List Char) (name : Option (List Char))
    (md : List (List Char × PyValue)) (hname : name = none ∨ name = some []) :
    personalizeText t name md = personalizeText t none md ∧
    ((∀ kv ∈ md, kv.1 ≠ nameKey ∧ braceFree kv.1) → occursIn namePat t = true →
      occursIn namePat (personalizeText t name md) = true) ∧
    (∀ md₁ v md₂, md = md₁ ++ (nameKey, v) :: md₂ →
      personalizeText t name md =
        mdFold (replaceAll namePat (pyStr v) (mdFold t md₁)) md₂) := by
  have hstep : nameStep t name = t := by
    rcases hname with h | h
    · rw [h]; rfl
    · rw [h]
      show (if ([] : List Char) = [] then t else replaceAll namePat [] t) = t
      rw [if_pos rfl]
  have hbase : personalizeText t name md = mdFold t md := by
    show mdFold (nameStep t name) md = mdFold t md
    rw [hstep]
  refine ⟨hbase, ?_, ?_⟩
  · intro hmd hocc
    rw [hbase, occursIn_spec]
    rw [occursIn_spec] at hocc
    exact namePat_infix_mdFold hmd t hocc
  · intro md₁ v md₂ hsplit
    rw [hbase, hsplit]
    show (md₁ ++ (nameKey, v) :: md₂).foldl _ t = _
    rw [List.foldl_append]
    rfl

theorem falsy_name_behavior_witness :
    ((some [] : Option (List Char)) = none ∨ (some [] : Option (List Char)) = some []) ∧
    (personalizeText greetTemplate (some []) bobMd = personalizeText greetTemplate none bobMd ∧
      ((∀ kv ∈ bobMd, kv.1 ≠ nameKey ∧ braceFree kv.1) →
        occursIn namePat greetTemplate = true →
        occursIn namePat (personalizeText greetTemplate (some []) bobMd) = true) ∧
      (∀ md₁ v md₂, bobMd = md₁ ++ (nameKey, v) :: md₂ →
        personalizeText greetTemplate (some []) bobMd =
          mdFold (replaceAll namePat (pyStr v) (mdFold greetTemplate md₁)) md₂)) :=
  ⟨Or.inr rfl, falsy_name_behavior greetTemplate (some []) bobMd (Or.inr rfl)⟩

/-! ### Structure of batch settlement and the batch loop -/

theorem settleBatch_evs (provider : RecipientRec → SendResult) :
    ∀ (rs : List RecipientRec) (sc fc : Nat),
      (settleBatch provider rs sc fc).evs =
        rs.map fun r => Event.recipientWrite r.id (recordStatus (provider r)) := by
  intro rs
  induction rs with
  | nil => intro sc fc; rfl
  | cons r rs ih =>
    intro sc fc
    cases hr : provider r <;> simp [settleBatch, hr, recordStatus, ih]

theorem settleBatch_sent (provider : RecipientRec → SendResult) :
    ∀ (rs : List RecipientRec) (sc fc : Nat),
      (settleBatch provider rs sc fc).sent_count =
        sc + rs.countP (fun r => provider r == SendResult.success) := by
  intro rs
  induction rs with
  | nil => intro sc fc; simp [settleBatch]
  | cons r rs ih =>
    intro sc fc
    cases hr : provider r <;> simp [settleBatch, hr, ih, List.countP_cons] <;> omega

theorem settleBatch_failed (provider : RecipientRec → SendResult) :
    ∀ (rs : List RecipientRec) (sc fc : Nat),
      (settleBatch provider rs sc fc).failed_count =
        fc + rs.countP (fun r => !(provider r == SendResult.success)) := by
  intro rs
  induction rs with
  | nil => intro sc fc; simp [settleBatch]
  | cons r rs ih =>
    intro sc fc
    cases hr : provider r <;> simp [settleBatch, hr, ih, List.countP_cons] <;> omega

theorem providerCallsOf_sleeper (c : Bool) :
    providerCallsOf (if c then [] else [Event.sleep]) = [] := by
  cases c <;> rfl

theorem recipientWritesOf_sleeper (c : Bool) :
    recipientWritesOf (if c then [] else [Event.sleep]) = [] := by
  cases c <;> rfl

theorem campaignUpdatesOf_sleeper (c : Bool) :
    campaignUpdatesOf (if c then [] else [Event.sleep]) = [] := by
  cases c <;> rfl

theorem runBatches_sent (provider : RecipientRec → SendResult) :
    ∀ (chunks : List (List RecipientRec)) (sc fc : Nat),
      (runBatches provider chunks sc fc).sent_count =
        sc + chunks.flatten.countP (fun r => provider r == SendResult.success) := by
  intro chunks
  induction chunks with
  | nil => intro sc fc; simp [runBatches]
  | cons b rest ih =>
    intro sc fc
    simp only [runBatches, ih, settleBatch_sent, List.flatten_cons, List.countP_append]
    omega

theorem runBatches_failed (provider : RecipientRec → SendResult) :
    ∀ (chunks : List (List RecipientRec)) (sc fc : Nat),
      (runBatches provider chunks sc fc).failed_count =
        fc + chunks.flatten.countP (fun r => !(provider r == SendResult.success)) := by
  intro chunks
  induction chunks with
  | nil => intro sc fc; simp [runBatches]
  | cons b rest ih =>
    intro sc fc
    simp only [runBatches, ih, settleBatch_failed, List.flatten_cons, List.countP_append]
    omega

theorem providerCallsOf_cons_call (x : Nat) (evs : List Event) :
    providerCallsOf (Event.providerCall x :: evs) = x :: providerCallsOf evs := rfl

theorem providerCallsOf_cons_write (x : Nat) (st : RStatus) (evs : List Event) :
    providerCallsOf (Event.recipientWrite x st :: evs) = providerCallsOf evs := rfl

theorem recipientWritesOf_cons_call (x : Nat) (evs : List Event) :
    recipientWritesOf (Event.providerCall x :: evs) = recipientWritesOf evs := rfl

theorem recipientWritesOf_cons_write (x : Nat) (st : RStatus) (evs : List Event) :
    recipientWritesOf (Event.recipientWrite x st :: evs) =
      (x, st) :: recipientWritesOf evs := rfl

theorem campaignUpdatesOf_cons_call (x : Nat) (evs : List Event) :
    campaignUpdatesOf (Event.providerCall x :: evs) = campaignUpdatesOf evs := rfl

theorem campaignUpdatesOf_cons_write (x : Nat) (st : RStatus) (evs : List Event) :
    campaignUpdatesOf (Event.recipientWrite x st :: evs) = campaignUpdatesOf evs := rfl

theorem providerCallsOf_map_calls {α : Type} (f : α → Nat) (b : List α) :
    providerCallsOf (b.map fun r => Event.providerCall (f r)) = b.map f := by
  induction b with
  | nil => rfl
  | cons r b ih => rw [List.map_cons, providerCallsOf_cons_call, ih, List.map_cons]

theorem providerCallsOf_map_writes {α : Type} (f : α → Nat) (g : α → RStatus) (b : List α) :
    providerCallsOf (b.map fun r => Event.recipientWrite (f r) (g r)) = [] := by
  induction b with
  | nil => rfl
  | cons r b ih => rw [List.map_cons, providerCallsOf_cons_write, ih]

theorem recipientWritesOf_map_calls {α : Type} (f : α → Nat) (b : List α) :
    recipientWritesOf (b.map fun r => Event.providerCall (f r)) = [] := by
  induction b with
  | nil => rfl
  | cons r b ih => rw [List.map_cons, recipientWritesOf_cons_call, ih]

theorem recipientWritesOf_map_writes {α : Type} (f : α → Nat) (g : α → RStatus) (b : List α) :
    recipientWritesOf (b.map fun r => Event.recipientWrite (f r) (g r)) =
      b.map fun r => (f r, g r) := by
  induction b with
  | nil => rfl
  | cons r b ih => rw [List.map_cons, recipientWritesOf_cons_write, ih, List.map_cons]

theorem campaignUpdatesOf_map_calls {α : Type} (f : α → Nat) (b : List α) :
    campaignUpdatesOf (b.map fun r => Event.providerCall (f r)) = [] := by
  induction b with
  | nil => rfl
  | cons r b ih => rw [List.map_cons, campaignUpdatesOf_cons_call, ih]

theorem campaignUpdatesOf_map_writes {α : Type} (f : α → Nat) (g : α → RStatus) (b : List α) :
    campaignUpdatesOf (b.map fun r => Event.recipientWrite (f r) (g r)) = [] := by
  induction b with
  | nil => rfl
  | cons r b ih => rw [List.map_cons, campaignUpdatesOf_cons_write, ih]

theorem runBatches_calls (provider : RecipientRec → SendResult) :
    ∀ (chunks : List (List RecipientRec)) (sc fc : Nat),
      providerCallsOf (runBatches provider chunks sc fc).evs =
        chunks.flatten.map RecipientRec.id := by
  intro chunks
  induction chunks with
  | nil => intro sc fc; rfl
  | cons b rest ih =>
    intro sc fc
    simp only [runBatches, List.flatten_cons, List.map_append]
    show providerCallsOf (_ ++ _ ++ _ ++ _) = _
    simp only [providerCallsOf, List.filterMap_append]
    show _ ++ _ ++ _ ++ _ = _
    rw [← providerCallsOf, ← providerCallsOf, ← providerCallsOf, ← providerCallsOf]
    rw [providerCallsOf_sleeper, ih, settleBatch_evs,
      providerCallsOf_map_calls, providerCallsOf_map_writes]
    simp

theorem runBatches_writes (provider : RecipientRec → SendResult) :
    ∀ (chunks : List (List RecipientRec)) (sc fc : Nat),
      recipientWritesOf (runBatches provider chunks sc fc).evs =
        chunks.flatten.map (fun r => (r.id, recordStatus (provider r))) := by
  intro chunks
  induction chunks with
  | nil => intro sc fc; rfl
  | cons b rest ih =>
    intro sc fc
    simp only [runBatches, List.flatten_cons, List.map_append]
    show recipientWritesOf (_ ++ _ ++ _ ++ _) = _
    simp only [recipientWritesOf, List.filterMap_append]
    show _ ++ _ ++ _ ++ _ = _
    rw [← recipientWritesOf, ← recipientWritesOf, ← recipientWritesOf, ← recipientWritesOf]
    rw [recipientWritesOf_sleeper, ih, settleBatch_evs,
      recipientWritesOf_map_calls, recipientWritesOf_map_writes]
    simp

theorem runBatches_no_campaign_writes (provider : RecipientRec → SendResult) :
    ∀ (chunks : List (List RecipientRec)) (sc fc : Nat),
      campaignUpdatesOf (runBatches provider chunks sc fc).evs = [] := by
  intro chunks
  induction chunks with
  | nil => intro sc fc; rfl
  | cons b rest ih =>
    intro sc fc
    simp only [runBatches]
    show campaignUpdatesOf (_ ++ _ ++ _ ++ _) = _
    simp only [campaignUpdatesOf, List.filterMap_append]
    show _ ++ _ ++ _ ++ _ = _
    rw [← campaignUpdatesOf, ← campaignUpdatesOf, ← campaignUpdatesOf, ← campaignUpdatesOf]
    rw [campaignUpdatesOf_sleeper, ih, settleBatch_evs,
      campaignUpdatesOf_map_calls, campaignUpdatesOf_map_writes]
    simp

/-! ### Structure of the 10-slicing -/

theorem chunk10_eq_nil_iff {α : Type} (l : List α) : chunk10 l = [] ↔ l = [] := by
  match l with
  | [] => simp [chunk10_nil]
  | x :: xs => rw [chunk10_cons]; simp

theorem chunk10_flatten {α : Type} (l : List α) : (chunk10 l).flatten = l := by
  have H : ∀ (n : Nat) (l : List α), l.length ≤ n → (chunk10 l).flatten = l := by
    intro n
    induction n with
    | zero =>
      intro l hl
      rw [List.eq_nil_of_length_eq_zero (Nat.le_zero.mp hl)]
      rfl
    | succ n ih =>
      intro l hl
      match l with
      | [] => rfl
      | x :: xs =>
        rw [chunk10_cons, List.flatten_cons]
        rw [ih ((x :: xs).drop 10)
          (by simp only [List.length_drop, List.length_cons] at *; omega)]
        exact List.take_append_drop 10 (x :: xs)
  exact H l.length l le_rfl

theorem chunk10_length {α : Type} (l : List α) :
    (chunk10 l).length = (l.length + 9) / 10 := by
  have H : ∀ (n : Nat) (l : List α), l.length ≤ n →
      (chunk10 l).length = (l.length + 9) / 10 := by
    intro n
    induction n with
    | zero =>
      intro l hl
      rw [List.eq_nil_of_length_eq_zero (Nat.le_zero.mp hl)]
      simp [chunk10_nil]
    | succ n ih =>
      intro l hl
      match l with
      | [] => simp [chunk10_nil]
      | x :: xs =>
        rw [chunk10_cons]
        show (chunk10 ((x :: xs).drop 10)).length + 1 = _
        rw [ih ((x :: xs).drop 10)
          (by simp only [List.length_drop, List.length_cons] at *; omega)]
        simp only [List.length_drop, List.length_cons]
        omega
  exact H l.length l le_rfl

theorem chunk10_sizes {α : Type} (l : List α) :
    ∀ b ∈ chunk10 l, b.length ≤ 10 ∧ b ≠ [] := by
  have H : ∀ (n : Nat) (l : List α), l.length ≤ n →
      ∀ b ∈ chunk10 l, b.length ≤ 10 ∧ b ≠ [] := by
    intro n
    induction n with
    | zero =>
      intro l hl
      rw [List.eq_nil_of_length_eq_zero (Nat.le_zero.mp hl)]
      intro b hb
      cases hb
    | succ n ih =>
      intro l hl
      match l with
      | [] => intro b hb; cases hb
      | x :: xs =>
        rw [chunk10_cons]
        intro b hb
        rcases List.mem_cons.mp hb with rfl | hb
        · constructor
          · simpa using List.length_take_le 10 (x :: xs)
          · simp [List.take_cons]
        · exact ih ((x :: xs).drop 10)
            (by simp only [List.length_drop, List.length_cons] at *; omega) b hb
  exact H l.length l le_rfl

theorem chunk10_full_sizes {α : Type} (l : List α) :
    ∀ b ∈ (chunk10 l).dropLast, b.length = 10 := by
  have H : ∀ (n : Nat) (l : List α), l.length ≤ n →
      ∀ b ∈ (chunk10 l).dropLast, b.length = 10 := by
    intro n
    induction n with
    | zero =>
      intro l hl
      rw [List.eq_nil_of_length_eq_zero (Nat.le_zero.mp hl)]
      intro b hb
      cases hb
    | succ n ih =>
      intro l hl
      match l with
      | [] => intro b hb; cases hb
      | x :: xs =>
        rw [chunk10_cons]
        intro b hb
        match hrest : chunk10 ((x :: xs).drop 10) with
        | [] => rw [hrest] at hb; cases hb
        | y :: ys =>
          rw [hrest, List.dropLast_cons₂] at hb
          rcases List.mem_cons.mp hb with rfl | hb
          · -- the first chunk is full because a later chunk exists
            have hne : (x :: xs).drop 10 ≠ [] := by
              intro hnil
              rw [hnil, chunk10_nil] at hrest
              cases hrest
            have hlen : 10 ≤ (x :: xs).length := by
              by_contra hlt
              exact hne (List.drop_eq_nil_of_le (by omega))
            simp only [List.length_cons] at hlen
            simp only [List.length_take, List.length_cons]
            omega
          · rw [← hrest] at hb
            exact ih ((x :: xs).drop 10)
              (by simp only [List.length_drop, List.length_cons] at *; omega) b hb
  exact H l.length l le_rfl

/-! ### Replaying events against the store -/

theorem applyEvents_append (db : DB) (l₁ l₂ : List Event) :
    applyEvents db (l₁ ++ l₂) = applyEvents (applyEvents db l₁) l₂ := by
  simp [applyEvents]

theorem applyEvents_recipients (db : DB) :
    ∀ evs, (applyEvents db evs).recipients =
      applyWrites db.recipients (recipientWritesOf evs) := by
  intro evs
  induction evs generalizing db with
  | nil => rfl
  | cons e evs ih =>
    show (applyEvents (applyEvent db e) evs).recipients = _
    rw [ih]
    cases e with
    | campaignWrite u => rfl
    | recipientWrite rid st => rfl
    | providerCall rid => rfl
    | sleep => rfl

theorem applyEvents_campaign (db : DB) :
    ∀ evs, (applyEvents db evs).campaign =
      (campaignUpdatesOf evs).foldl (fun c u => c.map (applyUpdate u)) db.campaign := by
  intro evs
  induction evs generalizing db with
  | nil => rfl
  | cons e evs ih =>
    show (applyEvents (applyEvent db e) evs).campaign = _
    rw [ih]
    cases e with
    | campaignWrite u => rfl
    | recipientWrite rid st => rfl
    | providerCall rid => rfl
    | sleep => rfl

/-! ### The stored document reached by `find_one` after replaying writes -/

theorem setStatus_id (r : RecipientRec) (st : RStatus) :
    (setStatus r st).id = r.id := rfl

theorem findRec_cons (rid : Nat) (r : RecipientRec) (l : List RecipientRec) :
    findRec rid (r :: l) = if r.id = rid then some r else findRec rid l := by
  simp only [findRec, List.find?_cons]
  by_cases h : r.id = rid
  · have hb : (r.id == rid) = true := by simpa using h
    simp [hb, h]
  · have hb : (r.id == rid) = false := by simpa using h
    simp [hb, h]

theorem findRec_updateFirst (rid rid' : Nat) (st : RStatus) :
    ∀ l : List RecipientRec,
      findRec rid (updateFirst rid' st l) =
        if rid' = rid then (findRec rid l).map (fun r => setStatus r st)
        else findRec rid l := by
  intro l
  induction l with
  | nil =>
    by_cases h : rid' = rid <;> simp [findRec, updateFirst, h]
  | cons r l ih =>
    show findRec rid (if r.id = rid' then setStatus r st :: l else r :: updateFirst rid' st l) = _
    by_cases h1 : r.id = rid'
    · rw [if_pos h1, findRec_cons, setStatus_id]
      by_cases hr : r.id = rid
      · have h2 : rid' = rid := by rw [← h1]; exact hr
        rw [if_pos hr, if_pos h2, findRec_cons, if_pos hr]
        rfl
      · have h2 : ¬ rid' = rid := fun hx => hr (h1.trans hx)
        rw [if_neg hr, if_neg h2, findRec_cons, if_neg hr]
    · rw [if_neg h1, findRec_cons]
      by_cases hr : r.id = rid
      · have h2 : ¬ rid' = rid := fun hx => h1 (hr.trans hx.symm)
        rw [if_pos hr, if_neg h2, findRec_cons, if_pos hr]
      · rw [if_neg hr, ih]
        by_cases h2 : rid' = rid
        · rw [if_pos h2, if_pos h2, findRec_cons, if_neg hr]
        · rw [if_neg h2, if_neg h2, findRec_cons, if_neg hr]

theorem findRec_applyWrites (rid : Nat) :
    ∀ (ws : List (Nat × RStatus)) (l : List RecipientRec),
      findRec rid (applyWrites l ws) =
        match lastStatus rid ws with
        | none => findRec rid l
        | some st => (findRec rid l).map (fun r => setStatus r st) := by
  intro ws
  induction ws with
  | nil => intro l; rfl
  | cons w ws ih =>
    intro l
    show findRec rid (applyWrites (updateFirst w.1 w.2 l) ws) = _
    rw [ih, findRec_updateFirst]
    cases hls : lastStatus rid ws with
    | some st =>
      have hcons : lastStatus rid (w :: ws) = some st := by
        simp [lastStatus, hls]
      rw [hcons]
      by_cases h : w.1 = rid
      · rw [if_pos h]
        cases findRec rid l <;> rfl
      · rw [if_neg h]
    | none =>
      have hcons : lastStatus rid (w :: ws) =
          if w.1 = rid then some w.2 else none := by
        simp [lastStatus, hls]
      rw [hcons]
      by_cases h : w.1 = rid
      · rw [if_pos h, if_pos h]
      · rw [if_neg h, if_neg h]

theorem lastStatus_eq_none (rid : Nat) :
    ∀ ws : List (Nat × RStatus), (∀ w ∈ ws, w.1 ≠ rid) → lastStatus rid ws = none := by
  intro ws
  induction ws with
  | nil => intro _; rfl
  | cons w ws ih =>
    intro h
    show (match lastStatus rid ws with
      | some st => some st
      | none => if w.1 = rid then some w.2 else none) = none
    rw [ih (fun w hw => h w (List.mem_cons_of_mem _ hw))]
    rw [if_neg (h w (List.mem_cons_self _ _))]

theorem lastStatus_mem (rid : Nat) :
    ∀ (ws : List (Nat × RStatus)) (st : RStatus),
      lastStatus rid ws = some st → (rid, st) ∈ ws := by
  intro ws
  induction ws with
  | nil => intro st h; cases h
  | cons w ws ih =>
    intro st h
    show (rid, st) ∈ w :: ws
    revert h
    show (match lastStatus rid ws with
      | some st2 => some st2
      | none => if w.1 = rid then some w.2 else none) = some st → _
    cases hls : lastStatus rid ws with
    | some st2 =>
      intro h
      injection h with h
      exact List.mem_cons_of_mem _ (ih st (by rw [hls, h]))
    | none =>
      intro h
      by_cases hw : w.1 = rid
      · rw [if_pos hw] at h
        injection h with h
        have hweq : w = (rid, st) := by
          cases w
          simp only at hw h
          simp [hw, h]
        rw [← hweq]
        exact List.mem_cons_self _ _
      · rw [if_neg hw] at h
        cases h

theorem lastStatus_isSome (rid : Nat) :
    ∀ (ws : List (Nat × RStatus)) (st0 : RStatus),
      (rid, st0) ∈ ws → ∃ st, lastStatus rid ws = some st := by
  intro ws
  induction ws with
  | nil => intro st0 h; cases h
  | cons w ws ih =>
    intro st0 h
    show ∃ st, (match lastStatus rid ws with
      | some st2 => some st2
      | none => if w.1 = rid then some w.2 else none) = some st
    rcases List.mem_cons.mp h with rfl | hmem
    · cases hls : lastStatus rid ws with
      | some st2 => exact ⟨st2, rfl⟩
      | none => exact ⟨(rid, st0).2, by rw [if_pos rfl]⟩
    · obtain ⟨st, hst⟩ := ih st0 hmem
      exact ⟨st, by rw [hst]⟩

theorem lastStatus_of_nodup (g : RecipientRec → RStatus) :
    ∀ sel : List RecipientRec, (sel.map RecipientRec.id).Nodup →
      ∀ r ∈ sel, lastStatus r.id (sel.map fun x => (x.id, g x)) = some (g r) := by
  intro sel
  induction sel with
  | nil => intro _ r hr; cases hr
  | cons x sel ih =>
    intro hnd r hr
    simp only [List.map_cons, List.nodup_cons] at hnd
    rcases List.mem_cons.mp hr with rfl | hr
    · have hnone : lastStatus r.id (sel.map fun y => (y.id, g y)) = none := by
        apply lastStatus_eq_none
        intro w hw
        obtain ⟨y, hy, rfl⟩ := List.mem_map.mp hw
        intro hcontra
        exact hnd.1 (hcontra ▸ List.mem_map_of_mem RecipientRec.id hy)
      show (match lastStatus r.id (sel.map fun y => (y.id, g y)) with
        | some st => some st
        | none => if (r.id, g r).1 = r.id then some (r.id, g r).2 else none) = some (g r)
      rw [hnone, if_pos rfl]
    · have hih := ih hnd.2 r hr
      show (match lastStatus r.id (sel.map fun y => (y.id, g y)) with
        | some st => some st
        | none => if (x.id, g x).1 = r.id then some (x.id, g x).2 else none) = some (g r)
      rw [hih]

/-! ### Shape of a whole run's trace -/

theorem providerCallsOf_cons_cw (u : CampaignUpdate) (evs : List Event) :
    providerCallsOf (Event.campaignWrite u :: evs) = providerCallsOf evs := rfl

theorem recipientWritesOf_cons_cw (u : CampaignUpdate) (evs : List Event) :
    recipientWritesOf (Event.campaignWrite u :: evs) = recipientWritesOf evs := rfl

theorem campaignUpdatesOf_cons_cw (u : CampaignUpdate) (evs : List Event) :
    campaignUpdatesOf (Event.campaignWrite u :: evs) = u :: campaignUpdatesOf evs := rfl

theorem campaignStatusWrites_eq (evs : List Event) :
    campaignStatusWrites evs = (campaignUpdatesOf evs).filterMap CampaignUpdate.status := by
  induction evs with
  | nil => rfl
  | cons e evs ih =>
    cases e with
    | campaignWrite u =>
      rw [campaignUpdatesOf_cons_cw]
      cases hu : u.status with
      | none =>
        simpa [campaignStatusWrites, List.filterMap_cons, hu] using ih
      | some s =>
        simpa [campaignStatusWrites, List.filterMap_cons, hu] using ih
    | recipientWrite rid st => simpa [campaignStatusWrites, List.filterMap_cons] using ih
    | providerCall rid => simpa [campaignStatusWrites, List.filterMap_cons] using ih
    | sleep => simpa [campaignStatusWrites, List.filterMap_cons] using ih

theorem bodyTrace_eq {db : DB} (c : CampaignRec) (hc : db.campaign = some c)
    (provider : RecipientRec → SendResult) (tm : Bool) (t : Nat) :
    bodyTrace db provider tm t =
      Event.campaignWrite (sendingUpdate t) ::
        ((runBatches provider (chunk10 (selectedRecipients db tm)) 0 0).evs ++
          [Event.campaignWrite
            (finalUpdate
              (runBatches provider (chunk10 (selectedRecipients db tm)) 0 0).sent_count
              (runBatches provider (chunk10 (selectedRecipients db tm)) 0 0).failed_count
              t)]) := by
  unfold bodyTrace
  rw [hc]

theorem bodyTrace_campaign_updates {db : DB} (c : CampaignRec)
    (hc : db.campaign = some c) (provider : RecipientRec → SendResult)
    (tm : Bool) (t : Nat) :
    campaignUpdatesOf (bodyTrace db provider tm t) =
      [sendingUpdate t,
        finalUpdate
          (runBatches provider (chunk10 (selectedRecipients db tm)) 0 0).sent_count
          (runBatches provider (chunk10 (selectedRecipients db tm)) 0 0).failed_count
          t] := by
  rw [bodyTrace_eq c hc, campaignUpdatesOf_cons_cw]
  show _ :: campaignUpdatesOf (_ ++ _) = _
  simp only [campaignUpdatesOf, List.filterMap_append]
  rw [← campaignUpdatesOf, ← campaignUpdatesOf, runBatches_no_campaign_writes]
  rfl

theorem bodyTrace_calls {db : DB} (c : CampaignRec) (hc : db.campaign = some c)
    (provider : RecipientRec → SendResult) (tm : Bool) (t : Nat) :
    providerCallsOf (bodyTrace db provider tm t) =
      (selectedRecipients db tm).map RecipientRec.id := by
  rw [bodyTrace_eq c hc, providerCallsOf_cons_cw]
  show providerCallsOf (_ ++ _) = _
  simp only [providerCallsOf, List.filterMap_append]
  rw [← providerCallsOf, ← providerCallsOf, runBatches_calls, chunk10_flatten]
  simp [providerCallsOf]

theorem bodyTrace_writes {db : DB} (c : CampaignRec) (hc : db.campaign = some c)
    (provider : RecipientRec → SendResult) (tm : Bool) (t : Nat) :
    recipientWritesOf (bodyTrace db provider tm t) =
      (selectedRecipients db tm).map fun r => (r.id, recordStatus (provider r)) := by
  rw [bodyTrace_eq c hc, recipientWritesOf_cons_cw]
  show recipientWritesOf (_ ++ _) = _
  simp only [recipientWritesOf, List.filterMap_append]
  rw [← recipientWritesOf, ← recipientWritesOf, runBatches_writes, chunk10_flatten]
  simp [recipientWritesOf]

theorem selected_sublist (db : DB) (tm : Bool) :
    List.Sublist (selectedRecipients db tm) db.recipients := by
  have hf : List.Sublist (pendingRecipients db) db.recipients :=
    List.filter_sublist db.recipients
  cases tm with
  | false => exact hf
  | true =>
    exact List.Sublist.trans (List.take_sublist 5 (pendingRecipients db)) hf

theorem recordStatus_cases (x : SendResult) :
    recordStatus x = RStatus.sent ∨ recordStatus x = RStatus.failed := by
  cases x with
  | success => exact Or.inl rfl
  | failure => exact Or.inr rfl
  | fault => exact Or.inr rfl

theorem findRec_self {db : DB} {r : RecipientRec} (hr : r ∈ db.recipients) :
    ∃ r0, findRec r.id db.recipients = some r0 := by
  cases hfind : findRec r.id db.recipients with
  | some r0 => exact ⟨r0, rfl⟩
  | none =>
    exfalso
    have := List.find?_eq_none.mp hfind r hr
    simp at this

/-- The stored status of every selected recipient after a fault-free run is
the last status written for its id. -/
theorem final_status_of_selected {db : DB} (c : CampaignRec)
    (provider : RecipientRec → SendResult) (tm : Bool) (t : Nat) (hOk : Bool)
    (hc : db.campaign = some c) {r : RecipientRec}
    (hr : r ∈ selectedRecipients db tm) {st : RStatus}
    (hst : lastStatus r.id ((selectedRecipients db tm).map
      (fun x => (x.id, recordStatus (provider x)))) = some st) :
    ∃ r', findRec r.id (finalState db provider tm t none hOk).recipients = some r' ∧
      r'.status = st := by
  have hrec : (finalState db provider tm t none hOk).recipients =
      applyWrites db.recipients ((selectedRecipients db tm).map
        (fun x => (x.id, recordStatus (provider x)))) := by
    show (applyEvents db (bodyTrace db provider tm t)).recipients = _
    rw [applyEvents_recipients, bodyTrace_writes c hc]
  obtain ⟨r0, hr0⟩ := findRec_self (List.Sublist.subset (selected_sublist db tm) hr)
  refine ⟨setStatus r0 st, ?_, rfl⟩
  rw [hrec, findRec_applyWrites, hst, hr0]
  rfl

theorem applyEvents_campaign_isSome (evs : List Event) :
    ∀ db : DB, db.campaign.isSome → ((applyEvents db evs).campaign).isSome := by
  induction evs with
  | nil => intro db h; exact h
  | cons e evs ih =>
    intro db h
    show ((applyEvents (applyEvent db e) evs).campaign).isSome
    apply ih
    cases e with
    | campaignWrite u =>
      show ((db.campaign.map (applyUpdate u))).isSome
      cases hcc : db.campaign with
      | none => rw [hcc] at h; cases h
      | some cc => rfl
    | recipientWrite rid st => exact h
    | providerCall rid => exact h
    | sleep => exact h

/-- Replaying campaign updates that carry no counter fields cannot change the
campaign counters. -/
theorem foldl_updates_counts (us : List CampaignUpdate)
    (h : ∀ u ∈ us, u.sent_count = none ∧ u.failed_count = none) :
    ∀ c : CampaignRec, ∃ c',
      us.foldl (fun o u => o.map (applyUpdate u)) (some c) = some c' ∧
      c'.sent_count = c.sent_count ∧ c'.failed_count = c.failed_count := by
  induction us with
  | nil => intro c; exact ⟨c, rfl, rfl, rfl⟩
  | cons u us ih =>
    intro c
    have hu := h u (List.mem_cons_self _ _)
    obtain ⟨c', hc', hs, hf⟩ := ih (fun u hu => h u (List.mem_cons_of_mem _ hu))
      (applyUpdate u c)
    refine ⟨c', hc', ?_, ?_⟩
    · rw [hs]
      show (u.sent_count.getD c.sent_count) = c.sent_count
      rw [hu.1]
      rfl
    · rw [hf]
      show (u.failed_count.getD c.failed_count) = c.failed_count
      rw [hu.2]
      rfl

/-- The campaign updates performed by a body prefix that stops before the
terminal write: nothing, or just the `sending` mark. -/
theorem take_body_campaign_updates {db : DB} (c : CampaignRec)
    (hc : db.campaign = some c) (provider : RecipientRec → SendResult)
    (tm : Bool) (t : Nat) {n : Nat}
    (hn : n < (bodyTrace db provider tm t).length) :
    campaignUpdatesOf ((bodyTrace db provider tm t).take n) = [] ∨
    campaignUpdatesOf ((bodyTrace db provider tm t).take n) = [sendingUpdate t] := by
  rw [bodyTrace_eq c hc] at hn ⊢
  match n with
  | 0 => exact Or.inl rfl
  | Nat.succ m =>
    right
    rw [List.take_succ_cons, campaignUpdatesOf_cons_cw]
    have hm : m ≤ (runBatches provider (chunk10 (selectedRecipients db tm)) 0 0).evs.length := by
      simp only [List.length_cons, List.length_append, List.length_nil] at hn
      omega
    rw [List.take_append_of_le_length hm]
    have hnil : campaignUpdatesOf
        (((runBatches provider (chunk10 (selectedRecipients db tm)) 0 0).evs).take m) = [] := by
      apply List.filterMap_eq_nil.mpr
      intro e he
      have hmem : e ∈ (runBatches provider (chunk10 (selectedRecipients db tm)) 0 0).evs :=
        List.take_subset m _ he
      have hall := List.filterMap_eq_nil.mp
        (runBatches_no_campaign_writes provider (chunk10 (selectedRecipients db tm)) 0 0) e hmem
      exact hall
    rw [hnil]

theorem finalState_campaign {db : DB} (c : CampaignRec) (hc : db.campaign = some c)
    (provider : RecipientRec → SendResult) (tm : Bool) (t : Nat) (hOk : Bool) :
    (finalState db provider tm t none hOk).campaign =
      some (applyUpdate
        (finalUpdate
          (runBatches provider (chunk10 (selectedRecipients db tm)) 0 0).sent_count
          (runBatches provider (chunk10 (selectedRecipients db tm)) 0 0).failed_count
          t)
        (applyUpdate (sendingUpdate t) c)) := by
  show (applyEvents db (bodyTrace db provider tm t)).campaign = _
  rw [applyEvents_campaign, bodyTrace_campaign_updates c hc, hc]
  rfl

theorem run_counts {db : DB} (provider : RecipientRec → SendResult) (tm : Bool) :
    (runBatches provider (chunk10 (selectedRecipients db tm)) 0 0).sent_count +
      (runBatches provider (chunk10 (selectedRecipients db tm)) 0 0).failed_count =
      (selectedRecipients db tm).length := by
  rw [runBatches_sent, runBatches_failed, chunk10_flatten]
  simp only [Nat.zero_add]
  rw [List.countP_eq_length_filter, List.countP_eq_length_filter]
  exact (List.length_eq_length_filter_add _).symm

theorem settleBatch_defang (provider : RecipientRec → SendResult) :
    ∀ (rs : List RecipientRec) (sc fc : Nat),
      settleBatch
        (fun x => if provider x = SendResult.fault then SendResult.failure else provider x)
        rs sc fc = settleBatch provider rs sc fc := by
  intro rs
  induction rs with
  | nil => intro sc fc; rfl
  | cons r rs ih =>
    intro sc fc
    cases hr : provider r with
    | success => simp [settleBatch, hr, ih]
    | failure => simp [settleBatch, hr, ih]
    | fault => simp [settleBatch, hr, ih]

theorem runBatches_defang (provider : RecipientRec → SendResult) :
    ∀ (chunks : List (List RecipientRec)) (sc fc : Nat),
      runBatches
        (fun x => if provider x = SendResult.fault then SendResult.failure else provider x)
        chunks sc fc = runBatches provider chunks sc fc := by
  intro chunks
  induction chunks with
  | nil => intro sc fc; rfl
  | cons b rest ih =>
    intro sc fc
    simp [runBatches, settleBatch_defang, ih]

theorem bodyTrace_defang (db : DB) (provider : RecipientRec → SendResult)
    (tm : Bool) (t : Nat) :
    bodyTrace db
        (fun x => if provider x = SendResult.fault then SendResult.failure else provider x)
        tm t = bodyTrace db provider tm t := by
  cases hcc : db.campaign with
  | none =>
    show bodyTrace db _ tm t = bodyTrace db _ tm t
    unfold bodyTrace
    rw [hcc]
  | some c =>
    rw [bodyTrace_eq c hcc
        (fun x => if provider x = SendResult.fault then SendResult.failure else provider x)
        tm t,
      bodyTrace_eq c hcc provider tm t]
    simp [runBatches_defang]

theorem finalState_defang (db : DB) (provider : RecipientRec → SendResult)
    (tm : Bool) (t : Nat) (hOk : Bool) :
    finalState db
        (fun x => if provider x = SendResult.fault then SendResult.failure else provider x)
        tm t none hOk = finalState db provider tm t none hOk := by
  show applyEvents db (bodyTrace db _ tm t) = applyEvents db (bodyTrace db provider tm t)
  rw [bodyTrace_defang]

/-! ### Claim C1: counter invariant and no recipient left pending -/

/-- C1: in a fault-free run over a campaign that exists, with distinct
recipient ids, the persisted `sent_count + failed_count` equals the number of
selected recipients, and the stored status of every selected recipient is
`sent` or `failed`, never left `pending`. -/
theorem counter_invariant_and_no_pending (db : DB) (c : CampaignRec)
    (provider : RecipientRec → SendResult) (tm : Bool) (t : Nat) (hOk : Bool)
    (hc : db.campaign = some c)
    (hids : (db.recipients.map RecipientRec.id).Nodup) :
    (∃ c', (finalState db provider tm t none hOk).campaign = some c' ∧
      c'.sent_count + c'.failed_count = (selectedRecipients db tm).length) ∧
    ∀ r ∈ selectedRecipients db tm,
      ∃ r', findRec r.id (finalState db provider tm t none hOk).recipients = some r' ∧
        (r'.status = RStatus.sent ∨ r'.status = RStatus.failed) := by
  constructor
  · refine ⟨_, finalState_campaign c hc provider tm t hOk, ?_⟩
    show (runBatches provider (chunk10 (selectedRecipients db tm)) 0 0).sent_count +
        (runBatches provider (chunk10 (selectedRecipients db tm)) 0 0).failed_count =
        (selectedRecipients db tm).length
    exact run_counts provider tm
  · intro r hr
    obtain ⟨st, hst⟩ := lastStatus_isSome r.id
      ((selectedRecipients db tm).map fun x => (x.id, recordStatus (provider x)))
      (recordStatus (provider r))
      (List.mem_map_of_mem _ hr)
    obtain ⟨r', hr', hst'⟩ := final_status_of_selected c provider tm t hOk hc hr hst
    refine ⟨r', hr', ?_⟩
    have hmem := lastStatus_mem r.id _ st hst
    obtain ⟨x, hx, hxe⟩ := List.mem_map.mp hmem
    have hsnd : recordStatus (provider x) = st := congrArg Prod.snd hxe
    rw [hst', ← hsnd]
    exact recordStatus_cases (provider x)

theorem counter_invariant_and_no_pending_witness :
    (wDB.campaign = some wCampaign) ∧
    ((wDB.recipients.map RecipientRec.id).Nodup) ∧
    ((∃ c', (finalState wDB wProvider false 0 none true).campaign = some c' ∧
      c'.sent_count + c'.failed_count = (selectedRecipients wDB false).length) ∧
    ∀ r ∈ selectedRecipients wDB false,
      ∃ r', findRec r.id (finalState wDB wProvider false 0 none true).recipients = some r' ∧
        (r'.status = RStatus.sent ∨ r'.status = RStatus.failed)) :=
  ⟨rfl, by decide,
    counter_invariant_and_no_pending wDB wCampaign wProvider false 0 true rfl (by decide)⟩

/-! ### Claim C2: batch partition and one provider call per recipient -/

/-- C2: the engine slices the selected recipients into ceil(N/10) batches of
size 10 except possibly the last, non-empty and covering every selected
recipient exactly once in order, and the delivery provider is invoked exactly
once per selected recipient, in order, with no retry. -/
theorem batch_partition_and_single_dispatch (db : DB) (c : CampaignRec)
    (provider : RecipientRec → SendResult) (tm : Bool) (t : Nat)
    (hc : db.campaign = some c) :
    (chunk10 (selectedRecipients db tm)).length =
      ((selectedRecipients db tm).length + 9) / 10 ∧
    (chunk10 (selectedRecipients db tm)).flatten = selectedRecipients db tm ∧
    (∀ b ∈ (chunk10 (selectedRecipients db tm)).dropLast, b.length = 10) ∧
    (∀ b ∈ chunk10 (selectedRecipients db tm), b.length ≤ 10 ∧ b ≠ []) ∧
    providerCallsOf (bodyTrace db provider tm t) =
      (selectedRecipients db tm).map RecipientRec.id :=
  ⟨chunk10_length _, chunk10_flatten _, chunk10_full_sizes _, chunk10_sizes _,
    bodyTrace_calls c hc provider tm t⟩

theorem batch_partition_and_single_dispatch_witness :
    (wDB.campaign = some wCampaign) ∧
    ((chunk10 (selectedRecipients wDB false)).length =
      ((selectedRecipients wDB false).length + 9) / 10 ∧
    (chunk10 (selectedRecipients wDB false)).flatten = selectedRecipients wDB false ∧
    (∀ b ∈ (chunk10 (selectedRecipients wDB false)).dropLast, b.length = 10) ∧
    (∀ b ∈ chunk10 (selectedRecipients wDB false), b.length ≤ 10 ∧ b ≠ []) ∧
    providerCallsOf (bodyTrace wDB wProvider false 0) =
      (selectedRecipients wDB false).map RecipientRec.id) :=
  ⟨rfl, batch_partition_and_single_dispatch wDB wCampaign wProvider false 0 rfl⟩

/-! ### Claim C4: the terminal write, and the empty run -/

/-- C4: a fault-free run ends with a single terminal campaign write carrying
`completed` when nothing failed and `completed_with_errors` otherwise,
together with both counters and the updated timestamp; a run with no pending
recipients ends with zero counters, status `completed`, and no provider
calls. -/
theorem terminal_write_and_empty_run (db : DB) (c : CampaignRec)
    (provider : RecipientRec → SendResult) (tm : Bool) (t : Nat) (hOk : Bool)
    (hc : db.campaign = some c) :
    ∃ sc fc,
      campaignUpdatesOf (bodyTrace db provider tm t) =
        [sendingUpdate t, finalUpdate sc fc t] ∧
      (bodyTrace db provider tm t).getLast? =
        some (Event.campaignWrite (finalUpdate sc fc t)) ∧
      (∃ c', (finalState db provider tm t none hOk).campaign = some c' ∧
        c'.status = (if fc = 0 then CStatus.completed else CStatus.completedWithErrors) ∧
        c'.sent_count = sc ∧ c'.failed_count = fc ∧ c'.updated_at = t) ∧
      (selectedRecipients db tm = [] →
        sc = 0 ∧ fc = 0 ∧ providerCallsOf (bodyTrace db provider tm t) = []) := by
  refine ⟨(runBatches provider (chunk10 (selectedRecipients db tm)) 0 0).sent_count,
    (runBatches provider (chunk10 (selectedRecipients db tm)) 0 0).failed_count,
    bodyTrace_campaign_updates c hc provider tm t, ?_, ?_, ?_⟩
  · rw [bodyTrace_eq c hc, ← List.cons_append, List.getLast?_concat]
  · exact ⟨_, finalState_campaign c hc provider tm t hOk, rfl, rfl, rfl, rfl⟩
  · intro hsel
    rw [hsel]
    refine ⟨rfl, rfl, ?_⟩
    rw [bodyTrace_calls c hc provider tm t, hsel]
    rfl

theorem terminal_write_and_empty_run_witness :
    (wDBDone.campaign = some wCampaign) ∧
    (selectedRecipients wDBDone false = []) ∧
    (∃ sc fc,
      campaignUpdatesOf (bodyTrace wDBDone wProvider false 5) =
        [sendingUpdate 5, finalUpdate sc fc 5] ∧
      (bodyTrace wDBDone wProvider false 5).getLast? =
        some (Event.campaignWrite (finalUpdate sc fc 5)) ∧
      (∃ c', (finalState wDBDone wProvider false 5 none true).campaign = some c' ∧
        c'.status = (if fc = 0 then CStatus.completed else CStatus.completedWithErrors) ∧
        c'.sent_count = sc ∧ c'.failed_count = fc ∧ c'.updated_at = 5) ∧
      (selectedRecipients wDBDone false = [] →
        sc = 0 ∧ fc = 0 ∧ providerCallsOf (bodyTrace wDBDone wProvider false 5) = [])) :=
  ⟨rfl, by decide,
    terminal_write_and_empty_run wDBDone wCampaign wProvider false 5 true rfl⟩

/-! ### Claim C5: a faulting send equals a failed send; failures are isolated -/

/-- C5: a provider task that raises is treated identically to one returning
`False`: the whole run trace and final store state are unchanged when every
fault is replaced by a plain failure; the faulting recipient is recorded
`failed`; and a sibling recipient whose send succeeded is still recorded
`sent`. -/
theorem fault_equals_failure_and_isolation (db : DB) (c : CampaignRec)
    (provider : RecipientRec → SendResult) (tm : Bool) (t : Nat) (hOk : Bool)
    (rA rB : RecipientRec)
    (hc : db.campaign = some c)
    (hids : (db.recipients.map RecipientRec.id).Nodup)
    (hA : rA ∈ selectedRecipients db tm) (hB : rB ∈ selectedRecipients db tm)
    (hfA : provider rA = SendResult.fault) (hfB : provider rB = SendResult.success) :
    bodyTrace db
        (fun x => if provider x = SendResult.fault then SendResult.failure else provider x)
        tm t = bodyTrace db provider tm t ∧
    finalState db
        (fun x => if provider x = SendResult.fault then SendResult.failure else provider x)
        tm t none hOk = finalState db provider tm t none hOk ∧
    (∃ r', findRec rA.id (finalState db provider tm t none hOk).recipients = some r' ∧
      r'.status = RStatus.failed) ∧
    (∃ r', findRec rB.id (finalState db provider tm t none hOk).recipients = some r' ∧
      r'.status = RStatus.sent) := by
  have hsel : ((selectedRecipients db tm).map RecipientRec.id).Nodup :=
    List.Nodup.sublist (List.Sublist.map _ (selected_sublist db tm)) hids
  refine ⟨bodyTrace_defang db provider tm t, finalState_defang db provider tm t hOk, ?_, ?_⟩
  · have hst := lastStatus_of_nodup (fun x => recordStatus (provider x))
      (selectedRecipients db tm) hsel rA hA
    obtain ⟨r', hr', he⟩ := final_status_of_selected c provider tm t hOk hc hA hst
    refine ⟨r', hr', ?_⟩
    rw [he]
    show recordStatus (provider rA) = RStatus.failed
    rw [hfA]
    rfl
  · have hst := lastStatus_of_nodup (fun x => recordStatus (provider x))
      (selectedRecipients db tm) hsel rB hB
    obtain ⟨r', hr', he⟩ := final_status_of_selected c provider tm t hOk hc hB hst
    refine ⟨r', hr', ?_⟩
    rw [he]
    show recordStatus (provider rB) = RStatus.sent
    rw [hfB]
    rfl

theorem fault_equals_failure_and_isolation_witness :
    (wDB.campaign = some wCampaign) ∧
    ((wDB.recipients.map RecipientRec.id).Nodup) ∧
    (wRec 2 RStatus.pending ∈ selectedRecipients wDB false) ∧
    (wRec 1 RStatus.pending ∈ selectedRecipients wDB false) ∧
    (wProvider (wRec 2 RStatus.pending) = SendResult.fault) ∧
    (wProvider (wRec 1 RStatus.pending) = SendResult.success) ∧
    (bodyTrace wDB
        (fun x => if wProvider x = SendResult.fault then SendResult.failure else wProvider x)
        false 0 = bodyTrace wDB wProvider false 0 ∧
    finalState wDB
        (fun x => if wProvider x = SendResult.fault then SendResult.failure else wProvider x)
        false 0 none true = finalState wDB wProvider false 0 none true ∧
    (∃ r', findRec (wRec 2 RStatus.pending).id
        (finalState wDB wProvider false 0 none true).recipients = some r' ∧
      r'.status = RStatus.failed) ∧
    (∃ r', findRec (wRec 1 RStatus.pending).id
        (finalState wDB wProvider false 0 none true).recipients = some r' ∧
      r'.status = RStatus.sent)) :=
  ⟨rfl, by decide, by decide, by decide, by decide, by decide,
    fault_equals_failure_and_isolation wDB wCampaign wProvider false 0 true
      (wRec 2 RStatus.pending) (wRec 1 RStatus.pending)
      rfl (by decide) (by decide) (by decide) (by decide) (by decide)⟩

/-! ### Claim C6: the test-mode cap -/

/-- C6: with test mode on, the selected set is the first five pending
recipients in store order, hence exactly five when at least five are pending
and all of them when fewer; with test mode off no truncation happens. -/
theorem test_mode_cap (db : DB) :
    selectedRecipients db true = (pendingRecipients db).take 5 ∧
    selectedRecipients db false = pendingRecipients db ∧
    (5 ≤ (pendingRecipients db).length → (selectedRecipients db true).length = 5) ∧
    ((pendingRecipients db).length < 5 → selectedRecipients db true = pendingRecipients db) := by
  refine ⟨rfl, rfl, ?_, ?_⟩
  · intro h5
    show ((pendingRecipients db).take 5).length = 5
    rw [List.length_take]
    omega
  · intro h5
    show (pendingRecipients db).take 5 = pendingRecipients db
    exact List.take_of_length_le (by omega)

theorem test_mode_cap_witness :
    (5 ≤ (pendingRecipients wDB).length) ∧
    (selectedRecipients wDB true).length = 5 :=
  ⟨by decide, (test_mode_cap wDB).2.2.1 (by decide)⟩

/-! ### Claim C7: top-level fault handling -/

/-- C7, counterexample: the claim says the run never raises to its caller and
that a run-level fault results in the campaign being set to `failed`.  If the
recovery write inside the `except` block itself faults (the store being down
is exactly the situation the handler runs in), the coroutine raises and the
campaign is left untouched. -/
theorem run_fault_can_raise_counterexample :
    runRaises (some 0) false = true ∧
    0 < (bodyTrace wDB wProvider false 0).length ∧
    (finalState wDB wProvider false 0 (some 0) false).campaign = some wCampaign ∧
    wCampaign.status = CStatus.draft := by
  decide

/-- C7, amended: a run-level fault is caught at the top level; provided the
recovery write itself succeeds, the campaign is set to `failed` with the
updated timestamp and the run does not raise; a fault-free run never raises;
and the recovery handler is the only path to the `failed` status: a
fault-free run never writes `failed`. -/
theorem run_fault_handling (db : DB) (c : CampaignRec)
    (provider : RecipientRec → SendResult) (tm : Bool) (t : Nat) (n : Nat) (hOk : Bool)
    (hc : db.campaign = some c) (hn : n < (bodyTrace db provider tm t).length) :
    (∃ c', (finalState db provider tm t (some n) true).campaign = some c' ∧
      c'.status = CStatus.failed ∧ c'.updated_at = t) ∧
    runRaises (some n) true = false ∧
    runRaises none hOk = false ∧
    CStatus.failed ∉ campaignStatusWrites (runTrace db provider tm t none hOk) := by
  refine ⟨?_, rfl, rfl, ?_⟩
  · have hsplit : finalState db provider tm t (some n) true =
        applyEvents (applyEvents db ((bodyTrace db provider tm t).take n))
          [Event.campaignWrite (failedUpdate t)] := by
      show applyEvents db ((bodyTrace db provider tm t).take n ++
        [Event.campaignWrite (failedUpdate t)]) = _
      rw [applyEvents_append]
    have hsome : ((applyEvents db ((bodyTrace db provider tm t).take n)).campaign).isSome := by
      apply applyEvents_campaign_isSome
      rw [hc]
      rfl
    obtain ⟨cmid, hcmid⟩ := Option.isSome_iff_exists.mp hsome
    refine ⟨applyUpdate (failedUpdate t) cmid, ?_, rfl, rfl⟩
    rw [hsplit]
    show ((applyEvents db ((bodyTrace db provider tm t).take n)).campaign.map
      (applyUpdate (failedUpdate t))) = _
    rw [hcmid]
    rfl
  · intro hmem
    rw [campaignStatusWrites_eq] at hmem
    have hupd : campaignUpdatesOf (runTrace db provider tm t none hOk) =
        [sendingUpdate t,
          finalUpdate
            (runBatches provider (chunk10 (selectedRecipients db tm)) 0 0).sent_count
            (runBatches provider (chunk10 (selectedRecipients db tm)) 0 0).failed_count
            t] :=
      bodyTrace_campaign_updates c hc provider tm t
    rw [hupd] at hmem
    by_cases hfc :
        (runBatches provider (chunk10 (selectedRecipients db tm)) 0 0).failed_count = 0 <;>
      simp [sendingUpdate, finalUpdate, hfc, List.filterMap_cons] at hmem

theorem run_fault_handling_witness :
    (wDB.campaign = some wCampaign) ∧
    (3 < (bodyTrace wDB wProvider false 0).length) ∧
    ((∃ c', (finalState wDB wProvider false 0 (some 3) true).campaign = some c' ∧
      c'.status = CStatus.failed ∧ c'.updated_at = 0) ∧
    runRaises (some 3) true = false ∧
    runRaises none true = false ∧
    CStatus.failed ∉ campaignStatusWrites (runTrace wDB wProvider false 0 none true)) :=
  ⟨rfl, by decide,
    run_fault_handling wDB wCampaign wProvider false 0 3 true rfl (by decide)⟩

/-! ### Claim C8: monotonicity of the status writes of one run -/

/-- C8, counterexample: the claim says every run first writes `sending` and
then exactly one terminal status.  A run whose very first store operation
faults (for instance the campaign lookup) writes only `failed`: no `sending`
write ever happens. -/
theorem status_sequence_counterexample :
    campaignStatusWrites (runTrace wDB wProvider false 0 (some 0) true) = [CStatus.failed] ∧
    CStatus.sending ∉ campaignStatusWrites (runTrace wDB wProvider false 0 (some 0) true) ∧
    0 < (bodyTrace wDB wProvider false 0).length := by
  decide

/-- C8, amended: over any single run (fault-free, or faulting after any
number of performed operations, with the recovery write succeeding or not)
the sequence of campaign status values written is one of `[]`, `[sending]`,
`[failed]`, or `[sending, s]` with `s` terminal: `draft` is never written, at
most one `sending` comes first, at most one terminal status is written and
nothing follows it. -/
theorem status_writes_monotonic (db : DB) (provider : RecipientRec → SendResult)
    (tm : Bool) (t : Nat) (fa : Option Nat) (hOk : Bool)
    (hfa : ∀ n, fa = some n → n < (bodyTrace db provider tm t).length) :
    campaignStatusWrites (runTrace db provider tm t fa hOk) = [] ∨
    campaignStatusWrites (runTrace db provider tm t fa hOk) = [CStatus.sending] ∨
    campaignStatusWrites (runTrace db provider tm t fa hOk) = [CStatus.failed] ∨
    ∃ s, (s = CStatus.completed ∨ s = CStatus.completedWithErrors ∨ s = CStatus.failed) ∧
      campaignStatusWrites (runTrace db provider tm t fa hOk) = [CStatus.sending, s] := by
  cases fa with
  | none =>
    cases hcc : db.campaign with
    | none =>
      left
      show campaignStatusWrites (bodyTrace db provider tm t) = []
      unfold bodyTrace
      rw [hcc]
      rfl
    | some c =>
      right; right; right
      refine ⟨if (runBatches provider (chunk10 (selectedRecipients db tm)) 0 0).failed_count = 0
          then CStatus.completed else CStatus.completedWithErrors, ?_, ?_⟩
      · by_cases hfc :
            (runBatches provider (chunk10 (selectedRecipients db tm)) 0 0).failed_count = 0
        · rw [if_pos hfc]; exact Or.inl rfl
        · rw [if_neg hfc]; exact Or.inr (Or.inl rfl)
      · show campaignStatusWrites (bodyTrace db provider tm t) = _
        rw [campaignStatusWrites_eq, bodyTrace_campaign_updates c hcc]
        rfl
  | some n =>
    have hn := hfa n rfl
    have hsplit : campaignStatusWrites (runTrace db provider tm t (some n) hOk) =
        campaignStatusWrites ((bodyTrace db provider tm t).take n) ++
        campaignStatusWrites (if hOk then [Event.campaignWrite (failedUpdate t)] else []) := by
      show campaignStatusWrites ((bodyTrace db provider tm t).take n ++ _) = _
      simp [campaignStatusWrites, List.filterMap_append]
    have htail : campaignStatusWrites
        (if hOk then [Event.campaignWrite (failedUpdate t)] else []) =
        if hOk then [CStatus.failed] else [] := by
      cases hOk <;> rfl
    cases hcc : db.campaign with
    | none =>
      have hbody : bodyTrace db provider tm t = [] := by
        unfold bodyTrace
        rw [hcc]
      rw [hsplit, htail, hbody, List.take_nil]
      cases hOk with
      | false => left; rfl
      | true => right; right; left; rfl
    | some c =>
      have hhead := take_body_campaign_updates c hcc provider tm t hn
      rw [hsplit, htail, campaignStatusWrites_eq]
      rcases hhead with hh | hh
      · rw [hh]
        cases hOk with
        | false => left; rfl
        | true => right; right; left; rfl
      · rw [hh]
        cases hOk with
        | false => right; left; rfl
        | true =>
          right; right; right
          exact ⟨CStatus.failed, Or.inr (Or.inr rfl), rfl⟩

theorem status_writes_monotonic_witness :
    (∀ n, (some 3 : Option Nat) = some n → n < (bodyTrace wDB wProvider false 0).length) ∧
    (campaignStatusWrites (runTrace wDB wProvider false 0 (some 3) true) = [] ∨
    campaignStatusWrites (runTrace wDB wProvider false 0 (some 3) true) = [CStatus.sending] ∨
    campaignStatusWrites (runTrace wDB wProvider false 0 (some 3) true) = [CStatus.failed] ∨
    ∃ s, (s = CStatus.completed ∨ s = CStatus.completedWithErrors ∨ s = CStatus.failed) ∧
      campaignStatusWrites (runTrace wDB wProvider false 0 (some 3) true) =
        [CStatus.sending, s]) :=
  ⟨by intro n hn; injection hn with hn; rw [← hn]; decide,
    status_writes_monotonic wDB wProvider false 0 (some 3) true
      (by intro n hn; injection hn with hn; rw [← hn]; decide)⟩

/-! ### Claim C9: the recovery write leaves the counters untouched -/

/-- C9: when a run-level fault fires, the recovery write carries only the
status and timestamp fields, and the campaign's counters after the faulted
run equal their pre-run values, even though some recipients may already have
been marked during the partial run. -/
theorem handler_write_frame (db : DB) (c : CampaignRec)
    (provider : RecipientRec → SendResult) (tm : Bool) (t : Nat) (n : Nat) (hOk : Bool)
    (hc : db.campaign = some c) (hn : n < (bodyTrace db provider tm t).length) :
    (failedUpdate t).sent_count = none ∧ (failedUpdate t).failed_count = none ∧
    ∃ c', (finalState db provider tm t (some n) hOk).campaign = some c' ∧
      c'.sent_count = c.sent_count ∧ c'.failed_count = c.failed_count := by
  refine ⟨rfl, rfl, ?_⟩
  have hups : ∀ u ∈ campaignUpdatesOf (runTrace db provider tm t (some n) hOk),
      u.sent_count = none ∧ u.failed_count = none := by
    intro u hu
    have hsplit : campaignUpdatesOf (runTrace db provider tm t (some n) hOk) =
        campaignUpdatesOf ((bodyTrace db provider tm t).take n) ++
        campaignUpdatesOf (if hOk then [Event.campaignWrite (failedUpdate t)] else []) := by
      show campaignUpdatesOf ((bodyTrace db provider tm t).take n ++ _) = _
      simp [campaignUpdatesOf, List.filterMap_append]
    rw [hsplit] at hu
    rcases List.mem_append.mp hu with h | h
    · rcases take_body_campaign_updates c hc provider tm t hn with hh | hh
      · rw [hh] at h
        cases h
      · rw [hh] at h
        rcases List.mem_cons.mp h with rfl | h
        · exact ⟨rfl, rfl⟩
        · cases h
    · cases hOk with
      | false => cases h
      | true =>
        rcases List.mem_cons.mp h with rfl | h
        · exact ⟨rfl, rfl⟩
        · cases h
  show ∃ c', (applyEvents db (runTrace db provider tm t (some n) hOk)).campaign = some c' ∧ _
  rw [applyEvents_campaign, hc]
  exact foldl_updates_counts _ hups c

theorem handler_write_frame_witness :
    (wDB9.campaign = some wCampaign9) ∧
    (2 < (bodyTrace wDB9 wProvider false 4).length) ∧
    ((failedUpdate 4).sent_count = none ∧ (failedUpdate 4).failed_count = none ∧
    ∃ c', (finalState wDB9 wProvider false 4 (some 2) true).campaign = some c' ∧
      c'.sent_count = wCampaign9.sent_count ∧ c'.failed_count = wCampaign9.failed_count) :=
  ⟨rfl, by decide,
    handler_write_frame wDB9 wCampaign9 wProvider false 4 2 true rfl (by decide)⟩

end EmailAgent
